import Mathlib

/-!
Verification of the pi-personal-crm data layer (`src/types.ts` / the database
module): a shallow embedding of the contact/company search pipeline, the
Levenshtein scorer, the CSV codec, duplicate detection and CSV import/export,
with theorems settling the specification's claims about them.

Modelling conventions:
* JavaScript strings are modelled as `List Char` (`Str`).  JS `toLowerCase`
  and SQLite `LOWER` are modelled as ASCII case folding (`lcChar`), which is
  exactly SQLite's behaviour and agrees with JS on ASCII data.
* SQLite `LIKE` (ASCII case-insensitive, with `%`/`_` wildcards) is modelled
  by `likeM`.
* A table is a `List` of rows; `SELECT ... WHERE p ORDER BY .. LIMIT n` is
  modelled as a stable merge sort by the `ORDER BY` key of the table followed
  by `filter p` and `take n` (SQLite `ORDER BY` on `TEXT` is byte order,
  which on UTF-8 is codepoint order; `NULL` sorts first).
* Timestamps and the event bus are irrelevant to every claim and are omitted.
-/

namespace Crm

/-- JS strings, modelled as lists of characters. -/
abbrev Str := List Char

/-- ASCII lower-casing of one character: SQLite `LOWER` / JS `toLowerCase`
restricted to ASCII. -/
def lcChar (c : Char) : Char :=
  if 65 ≤ c.toNat ∧ c.toNat ≤ 90 then Char.ofNat (c.toNat + 32) else c

/-- ASCII lower-casing of a string. -/
def lower (s : Str) : Str := s.map lcChar

/-- Whitespace test used by JS `trim`, `split(/\s+/)` (modelled on the ASCII
whitespace characters that can actually appear in the data of interest). -/
def isWs (c : Char) : Bool :=
  c = ' ' || c = '\t' || c = '\n' || c = '\r'

/-- JS `String.prototype.trim`. -/
def trimStr (s : Str) : Str :=
  ((s.dropWhile isWs).reverse.dropWhile isWs).reverse

/-- JS `s.split(/\s+/)`: split on maximal whitespace runs.  Faithful to JS:
a leading separator yields a leading empty chunk, a trailing separator a
trailing empty chunk, and the empty string yields `[""]`. -/
def jsSplitWs : Str → List Str
  | [] => [[]]
  | c :: rest =>
    if isWs c then
      -- a whitespace run is one separator: emit the (possibly empty)
      -- chunk, then let the rest of the run contribute nothing
      match rest with
      | [] => [[], []]
      | d :: _ =>
        if isWs d then [] :: (jsSplitWs rest).tail
        else [] :: jsSplitWs rest
    else
      match jsSplitWs rest with
      | r :: rs => (c :: r) :: rs
      | [] => [[c]]

/-- JS `s.split(sep)` for a one-character separator (no run merging). -/
def splitOn (sep : Char) : Str → List Str
  | [] => [[]]
  | c :: rest =>
    if c = sep then [] :: splitOn sep rest
    else
      match splitOn sep rest with
      | r :: rs => (c :: r) :: rs
      | [] => [[c]]

/-- `startsWithSub s p`: `p` is a prefix of `s` (character-exact). -/
def startsWithSub : Str → Str → Bool
  | _, [] => true
  | [], _ :: _ => false
  | c :: s, d :: p => c = d && startsWithSub s p

/-- `hasSub s p`: `p` occurs as a contiguous substring of `s`
(character-exact; case handling is done by the callers via `lower`). -/
def hasSub : Str → Str → Bool
  | [], p => startsWithSub [] p
  | c :: s', p => startsWithSub (c :: s') p || hasSub s' p

/-- SQLite `LIKE`: `likeM pat s` matches pattern `pat` against string `s`.
`%` matches any sequence, `_` any single character, and other characters
match ASCII case-insensitively (SQLite's default `LIKE` semantics).
`likeStar f s` handles the `%` wildcard: the rest of the pattern (`f`)
must match some suffix of `s`. -/
def likeStar (f : Str → Bool) : Str → Bool
  | [] => f []
  | c :: s => f (c :: s) || likeStar f s

/-- See the doc comment above: pattern interpretation of SQLite `LIKE`. -/
def likeM : Str → Str → Bool
  | [], s => s.isEmpty
  | p :: ps, s =>
    if p = '%' then likeStar (likeM ps) s
    else
      match s with
      | [] => false
      | c :: s' =>
        if p = '_' then likeM ps s'
        else (lcChar p = lcChar c) && likeM ps s'

/-- `col LIKE '%' || t || '%'` (the only pattern shape the CRM builds). -/
def likeContains (s t : Str) : Bool := likeM ('%' :: (t ++ ['%'])) s

/-- Byte-order (= codepoint-order) strict comparison of SQLite `TEXT`. -/
def strLt : Str → Str → Bool
  | [], [] => false
  | [], _ :: _ => true
  | _ :: _, [] => false
  | a :: as, b :: bs => a.toNat < b.toNat || (a = b && strLt as bs)

/-- Non-strict `TEXT` comparison. -/
def strLe (a b : Str) : Bool := strLt a b || a = b

/-- `ORDER BY` comparison of a nullable `TEXT` column: `NULL`s sort first. -/
def optStrLe : Option Str → Option Str → Bool
  | none, _ => true
  | some _, none => false
  | some a, some b => strLe a b

-- ── Data model (the `Contact` / `Company` interfaces of `types.ts`) ──

/-- A row of `crm_contacts`, joined with the denormalized `company_name`
(the shape every contact query of the module returns).  The `created_at` /
`updated_at` / `custom_fields` / `avatar_url` columns play no role in any
claim and are omitted. -/
structure Contact where
  id : Nat
  first_name : Str
  last_name : Option Str := none
  nickname : Option Str := none
  email : Option Str := none
  phone : Option Str := none
  company_id : Option Nat := none
  company_name : Option Str := none
  birthday : Option Str := none
  anniversary : Option Str := none
  notes : Option Str := none
  tags : Option Str := none
deriving DecidableEq, Repr

/-- A row of `crm_companies`. -/
structure Company where
  id : Nat
  name : Str
  website : Option Str := none
  industry : Option Str := none
  notes : Option Str := none
deriving DecidableEq, Repr

/-- `ORDER BY c.first_name, c.last_name`. -/
def nameLe (c d : Contact) : Bool :=
  strLt c.first_name d.first_name ||
    (c.first_name = d.first_name && optStrLe c.last_name d.last_name)

/-- `ORDER BY name` on companies. -/
def companyLe (c d : Company) : Bool := strLe c.name d.name

/-- `SELECT * FROM crm_contacts ... ORDER BY first_name, last_name`:
a stable sort of the table. -/
def sortedContacts (db : List Contact) : List Contact := db.mergeSort nameLe

/-- `SELECT ... WHERE p ORDER BY first_name, last_name LIMIT limit`. -/
def selectContacts (db : List Contact) (p : Contact → Bool) (limit : Nat) :
    List Contact :=
  ((sortedContacts db).filter p).take limit

/-- `LOWER(COALESCE(c.last_name, ''))`-style access to a nullable column. -/
def coalesceStr (o : Option Str) : Str := o.getD []

/-- `col LIKE pat` on a nullable column: `NULL LIKE pat` is not true. -/
def optLike (o : Option Str) (pat : Str) : Bool :=
  match o with
  | none => false
  | some s => likeM pat s

-- ── Levenshtein distance (the `levenshtein` function, lines 1352–1381) ──

/-- Inner loop of one DP row: given the character `y` (= `b[j-1]`), the
remaining characters of `a`, the tail of the previous row aligned so that
its head is `prev[i-1]`, and the last computed entry `curr[i-1]`, produce
the entries `curr[i], curr[i+1], ...`.  Mirrors
`curr[i] = min(prev[i] + 1, curr[i-1] + 1, prev[i-1] + cost)`. -/
def rowGo (y : Char) : Str → List Nat → Nat → List Nat
  | [], _, _ => []
  | _ :: _, [], _ => []
  | x :: a', pPrev :: pTail, cPrev =>
    let pCur := pTail.headD 0
    let cost := if x = y then 0 else 1
    let ci := min (pCur + 1) (min (cPrev + 1) (pPrev + cost))
    ci :: rowGo y a' pTail ci

/-- One step of the outer loop: from row `j-1` (`prev`) to row `j`,
whose first entry is `j` (= `prev[0] + 1`). -/
def rowNext (a : Str) (prev : List Nat) (y : Char) : List Nat :=
  (prev.headD 0 + 1) :: rowGo y a prev (prev.headD 0 + 1)

/-- The two-row DP of the source: start from `prev = [0, 1, ..., aLen]`,
fold one `rowNext` per character of `b`, return the last entry. -/
def levDP (a b : Str) : Nat :=
  (b.foldl (rowNext a) (List.range (a.length + 1))).getLastD 0

/-- The source `levenshtein(a, b)`: early exits for equal and empty inputs,
swap so that the DP rows range over the shorter string, then the DP. -/
def levenshtein (a b : Str) : Nat :=
  if a = b then 0
  else if a.length = 0 then b.length
  else if b.length = 0 then a.length
  else if a.length > b.length then levDP b a
  else levDP a b

-- ── Fuzzy search (`searchContactsFuzzy`, lines 803–854) ──

/-- `Math.min(...)` of a non-empty list (the source always spreads a list
with at least three elements). -/
def listMin : List Nat → Nat
  | [] => 0
  | x :: xs => xs.foldl min x

/-- Per-term threshold `max(2, floor(t.length / 3))` (on the lowercased
term, as in the source). -/
def fuzzyThreshold (t : Str) : Nat := max 2 (t.length / 3)

/-- The candidate distances for one lowercased term against one contact:
lowercase `first_name`, `last_name`, `nickname`, and every chunk of the JS
split of lowercase `first_name` on whitespace (the source also computes an
unused `full` string, dropped here). -/
def fuzzyDistances (c : Contact) (t : Str) : List Nat :=
  let first := lower c.first_name
  let last := lower (coalesceStr c.last_name)
  let nick := lower (coalesceStr c.nickname)
  [levenshtein t first, levenshtein t last, levenshtein t nick] ++
    (jsSplitWs first).map (fun w => levenshtein t w)

/-- The scoring loop over the query terms: `none` models
`allMatch = false; break`, `some s` the accumulated `totalScore`. -/
def fuzzyScoreGo (c : Contact) : List Str → Nat → Option Nat
  | [], acc => some acc
  | term :: ts, acc =>
    let t := lower term
    let best := listMin (fuzzyDistances c t)
    if best > fuzzyThreshold t then none
    else fuzzyScoreGo c ts (acc + best)

/-- The total fuzzy score of a contact (`none` = rejected). -/
def fuzzyScore (c : Contact) (terms : List Str) : Option Nat :=
  fuzzyScoreGo c terms 0

/-- `searchContactsFuzzy(terms, limit)`: fetch all contacts in name order,
score each, keep the accepted ones, stable-sort by score ascending
(JS `sort((a, b) => a.score - b.score)` is stable), truncate to `limit`. -/
def searchContactsFuzzy (db : List Contact) (terms : List Str) (limit : Nat) :
    List Contact :=
  let scored := (sortedContacts db).filterMap
    (fun c => (fuzzyScore c terms).map (fun s => (c, s)))
  ((scored.mergeSort (fun p q => p.2 ≤ q.2)).map Prod.fst).take limit

-- ── Smart search (`searchContactsSmart`, lines 737–797) ──

/-- Stage 1 per-term condition:
`LOWER(c.first_name) LIKE LOWER('%t%') OR
 LOWER(COALESCE(c.last_name, '')) LIKE LOWER('%t%')`. -/
def stage1TermMatch (c : Contact) (t : Str) : Bool :=
  likeM ('%' :: (lower t ++ ['%'])) (lower c.first_name) ||
    likeM ('%' :: (lower t ++ ['%'])) (lower (coalesceStr c.last_name))

/-- Stage 1 `WHERE`: every term matches first or last name. -/
def stage1Match (terms : List Str) (c : Contact) : Bool :=
  terms.all (stage1TermMatch c)

/-- Stage 2 `WHERE`:
`LOWER(COALESCE(c.last_name, '')) LIKE LOWER('%last%') AND
 LOWER(c.first_name) LIKE LOWER('%first%')`. -/
def stage2Match (lastName firstName : Str) (c : Contact) : Bool :=
  likeM ('%' :: (lower lastName ++ ['%'])) (lower (coalesceStr c.last_name)) &&
    likeM ('%' :: (lower firstName ++ ['%'])) (lower c.first_name)

/-- Stage 3 `WHERE` (the prepared `searchContacts` statement): one pattern
`%trimmed%` OR-matched across `first_name`, `last_name`, `nickname`,
`email`, `phone`, `tags` (plain `LIKE`, which is ASCII case-insensitive). -/
def stage3Match (trimmed : Str) (c : Contact) : Bool :=
  let pat : Str := '%' :: (trimmed ++ ['%'])
  likeM pat c.first_name || optLike c.last_name pat ||
    optLike c.nickname pat || optLike c.email pat ||
    optLike c.phone pat || optLike c.tags pat

/-- The split of the trimmed query into search terms:
`trimmed.split(/\s+/).filter(t => t.length > 0)`. -/
def queryTerms (trimmed : Str) : List Str :=
  (jsSplitWs trimmed).filter (fun t => t.length > 0)

/-- Stages 3 and 4 (shared tail of `searchContactsSmart`). -/
def searchStage34 (db : List Contact) (trimmed : Str) (terms : List Str)
    (limit : Nat) : List Contact :=
  let likeResults := selectContacts db (stage3Match trimmed) limit
  if likeResults ≠ [] then likeResults
  else searchContactsFuzzy db terms limit

/-- The comma-fallback parts: `trimmed.split(",").map(s => s.trim())`,
destructured as `[lastName, ...firstParts]`, with
`firstName = firstParts.join(" ").trim()`. -/
def commaParts (trimmed : Str) : Str × Str :=
  match (splitOn ',' trimmed).map trimStr with
  | [] => ([], [])
  | lastName :: firstParts =>
    (lastName, trimStr (List.intercalate [' '] firstParts))

/-- Stage 2 (the comma fallback), as executed by the source: only when the
trimmed query contains a comma and both derived parts are truthy. -/
def commaStage (db : List Contact) (trimmed : Str) (limit : Nat) :
    List Contact :=
  if trimmed.contains ',' then
    let p := commaParts trimmed
    if p.1 ≠ [] ∧ p.2 ≠ [] then
      selectContacts db (stage2Match p.1 p.2) limit
    else []
  else []

/-- `searchContactsSmart(query, limit)`. -/
def searchContactsSmart (db : List Contact) (query : Str) (limit : Nat) :
    List Contact :=
  let trimmed := trimStr query
  if trimmed = [] then []
  else
    let terms := queryTerms trimmed
    if terms.length > 1 then
      let results := selectContacts db (stage1Match terms) limit
      if results ≠ [] then results
      else
        let commaResults := commaStage db trimmed limit
        if commaResults ≠ [] then commaResults
        else searchStage34 db trimmed terms limit
    else searchStage34 db trimmed terms limit

-- ── The `CrmApi` entry points used by the claims ──

/-- `getContacts(search?, limit)`: JS truthiness — `undefined` and the empty
string both take the plain listing branch. -/
def getContacts (db : List Contact) (search : Option Str) (limit : Nat) :
    List Contact :=
  match search with
  | some q => if q ≠ [] then searchContactsSmart db q limit
              else (sortedContacts db).take limit
  | none => (sortedContacts db).take limit

/-- `searchContacts(query, limit = 20)`. -/
def searchContacts (db : List Contact) (query : Str) (limit : Nat := 20) :
    List Contact :=
  getContacts db (some query) limit

/-- The prepared `searchCompanies` statement's `WHERE`:
`name LIKE ? OR industry LIKE ? OR website LIKE ?` with pattern `%q%`. -/
def companyMatch (q : Str) (c : Company) : Bool :=
  let pat : Str := '%' :: (q ++ ['%'])
  likeM pat c.name || optLike c.industry pat || optLike c.website pat

/-- `getCompanies(search?)`: non-empty search runs the prepared statement
with `LIMIT 100`; otherwise the full listing, ordered by name. -/
def getCompanies (db : List Company) (search : Option Str) : List Company :=
  match search with
  | some q =>
    if q ≠ [] then (((db.mergeSort companyLe).filter (companyMatch q)).take 100)
    else db.mergeSort companyLe
  | none => db.mergeSort companyLe

/-- `searchCompanies(query, limit = 20)`: `getCompanies(query).slice(0, limit)`. -/
def searchCompanies (db : List Company) (q : Str) (limit : Nat := 20) :
    List Company :=
  (getCompanies db (some q)).take limit

-- ── Duplicate detection (`findDuplicates`, lines 1134–1151) ──

/-- The argument record of `findDuplicates`. -/
structure DupQuery where
  email : Option Str := none
  first_name : Str
  last_name : Option Str := none

/-- `findDuplicatesByEmail` `WHERE`:
`c.email = ? AND c.email IS NOT NULL AND c.email != ''` (case-sensitive). -/
def emailDupMatch (e : Str) (c : Contact) : Bool :=
  match c.email with
  | none => false
  | some s => s = e && s ≠ []

/-- `findDuplicatesByName` `WHERE`: `LOWER(first_name) = LOWER(?) AND
LOWER(COALESCE(last_name, '')) = LOWER(?)`. -/
def nameDupMatch (f l : Str) (c : Contact) : Bool :=
  lower c.first_name = lower f && lower (coalesceStr c.last_name) = lower l

/-- One `found.set(c.id, c)` step of the JS `Map`: an existing key keeps its
insertion position but takes the new value; a new key is appended. -/
def mapSetById (acc : List Contact) (c : Contact) : List Contact :=
  if acc.any (fun d => d.id = c.id) then
    acc.map (fun d => if d.id = c.id then c else d)
  else acc ++ [c]

/-- Deduplication by contact id with JS `Map` insertion-order semantics. -/
def dedupById (l : List Contact) : List Contact := l.foldl mapSetById []

/-- `findDuplicates(data)`: the email probe (only when `data.email` is
truthy, i.e. present and non-empty) followed by the name probe (always,
with a missing `last_name` defaulted to `""`), unioned via the `Map`. -/
def findDuplicates (db : List Contact) (data : DupQuery) : List Contact :=
  let byEmail :=
    match data.email with
    | some e => if e ≠ [] then db.filter (emailDupMatch e) else []
    | none => []
  let byName := db.filter (nameDupMatch data.first_name (coalesceStr data.last_name))
  dedupById (byEmail ++ byName)

-- ── CSV codec (`escCsv` lines 1162–1169, `parseCsvLines` lines 1299–1345) ──

/-- Double every `"` in a field (the body of the quoted branch). -/
def dupQuotes : Str → Str
  | [] => []
  | c :: s => if c = '"' then '"' :: '"' :: dupQuotes s else c :: dupQuotes s

/-- `escCsv(val)`: empty (or missing) values render as the empty string; a
field containing `,`, `"` or a newline is quote-wrapped with internal
quotes doubled; anything else is emitted unchanged. -/
def escCsv (val : Option Str) : Str :=
  match val with
  | none => []
  | some s =>
    if s = [] then []
    else if s.contains ',' || s.contains '"' || s.contains '\n' then
      '"' :: (dupQuotes s ++ ['"'])
    else s

/-- The character loop of `parseCsvLines`, with the mutable state made
explicit: the remaining input, `inQuotes`, the field under construction,
the current row, and the finished rows.  Fields and rows are accumulated
at the end of their lists, matching the JS `push`es. -/
def parseCsvAux : Str → Bool → Str → List Str → List (List Str) →
    List (List Str)
  | [], _, field, current, rows =>
    -- trailing field/row: suppress a sole empty field
    let current' := current ++ [field]
    if current'.length > 0 && !(current'.length = 1 && field = []) then
      rows ++ [current']
    else rows
  | '"' :: '"' :: rest, true, field, current, rows =>
    -- `i + 1 < csv.length && csv[i+1] === '"'`: an escaped quote
    parseCsvAux rest true (field ++ ['"']) current rows
  | '"' :: rest, true, field, current, rows =>
    parseCsvAux rest false field current rows
  | c :: rest, true, field, current, rows =>
    parseCsvAux rest true (field ++ [c]) current rows
  | c :: rest, false, field, current, rows =>
    if c = '"' then parseCsvAux rest true field current rows
    else if c = ',' then parseCsvAux rest false [] (current ++ [field]) rows
    else if c = '\n' then
      let current' := current ++ [field]
      parseCsvAux rest false [] []
        (if current'.length > 0 then rows ++ [current'] else rows)
    else if c = '\r' then parseCsvAux rest false field current rows
    else parseCsvAux rest false (field ++ [c]) current rows

/-- `parseCsvLines(csv)`. -/
def parseCsvLines (csv : Str) : List (List Str) :=
  parseCsvAux csv false [] [] []

/-- Encode one CSV row (fields joined by `,`); the claims' encoder. -/
def encodeCsvRow (r : List Str) : Str :=
  List.intercalate [','] (r.map (fun f => escCsv (some f)))

/-- Encode rows (joined by `\n`); the claims' `csvEncode`. -/
def encodeCsvRows (rows : List (List Str)) : Str :=
  List.intercalate ['\n'] (rows.map encodeCsvRow)

-- ── CSV export (`exportContactsCsv`, lines 1155–1187) ──

/-- The fixed export header line
`first_name,last_name,email,phone,company_name,birthday,anniversary,tags,notes`. -/
def exportHeader : Str :=
  ['f','i','r','s','t','_','n','a','m','e',',','l','a','s','t','_','n','a','m','e',
   ',','e','m','a','i','l',',','p','h','o','n','e',',','c','o','m','p','a','n','y',
   '_','n','a','m','e',',','b','i','r','t','h','d','a','y',',','a','n','n','i','v',
   'e','r','s','a','r','y',',','t','a','g','s',',','n','o','t','e','s']

/-- The CSV row of one contact: each of the nine fields independently
through `escCsv`. -/
def contactCsvRow (c : Contact) : Str :=
  List.intercalate [',']
    [escCsv (some c.first_name), escCsv c.last_name, escCsv c.email,
     escCsv c.phone, escCsv c.company_name, escCsv c.birthday,
     escCsv c.anniversary, escCsv c.tags, escCsv c.notes]

/-- The `rows` array of `exportContactsCsv`: the header, then one row per
contact returned by `getContacts(undefined, 100_000)`. -/
def exportContactsCsvRows (db : List Contact) : List Str :=
  exportHeader :: (getContacts db none 100000).map contactCsvRow

/-- `exportContactsCsv()`: the rows joined by `\n`. -/
def exportContactsCsv (db : List Contact) : Str :=
  List.intercalate ['\n'] (exportContactsCsvRows db)

-- ── CSV import (`importContactsCsv`, lines 1191–1291) ──

/-- The database state touched by the import: the two tables it reads and
writes. -/
structure Db where
  contacts : List Contact := []
  companies : List Company := []
deriving Repr

/-- Fresh `AUTOINCREMENT` id for a contact insert. -/
def nextContactId (db : Db) : Nat :=
  1 + (db.contacts.map (fun c => c.id)).foldl max 0

/-- Fresh `AUTOINCREMENT` id for a company insert. -/
def nextCompanyId (db : Db) : Nat :=
  1 + (db.companies.map (fun c => c.id)).foldl max 0

/-- The `CreateContactData` record (fields relevant to import). -/
structure CreateContactData where
  first_name : Str
  last_name : Option Str := none
  nickname : Option Str := none
  email : Option Str := none
  phone : Option Str := none
  company_id : Option Nat := none
  birthday : Option Str := none
  anniversary : Option Str := none
  notes : Option Str := none
  tags : Option Str := none

/-- `createContact(data)`: insert with a fresh id, then the re-read joins
the denormalized `company_name`. -/
def createContact (db : Db) (d : CreateContactData) : Contact × Db :=
  let cname := d.company_id.bind
    (fun i => (db.companies.find? (fun co => co.id = i)).map (fun co => co.name))
  let c : Contact :=
    { id := nextContactId db, first_name := d.first_name,
      last_name := d.last_name, nickname := d.nickname, email := d.email,
      phone := d.phone, company_id := d.company_id, company_name := cname,
      birthday := d.birthday, anniversary := d.anniversary,
      notes := d.notes, tags := d.tags }
  (c, { db with contacts := db.contacts ++ [c] })

/-- `createCompany({name})`. -/
def createCompany (db : Db) (name : Str) : Company × Db :=
  let co : Company := { id := nextCompanyId db, name := name }
  (co, { db with companies := db.companies ++ [co] })

def fld_first_name : Str := ['f','i','r','s','t','_','n','a','m','e']
def fld_last_name : Str := ['l','a','s','t','_','n','a','m','e']
def fld_email : Str := ['e','m','a','i','l']
def fld_phone : Str := ['p','h','o','n','e']
def fld_company_name : Str := ['c','o','m','p','a','n','y','_','n','a','m','e']
def fld_birthday : Str := ['b','i','r','t','h','d','a','y']
def fld_anniversary : Str := ['a','n','n','i','v','e','r','s','a','r','y']
def fld_tags : Str := ['t','a','g','s']
def fld_notes : Str := ['n','o','t','e','s']
def fld_nickname : Str := ['n','i','c','k','n','a','m','e']

/-- The header-synonym table (`fieldMap` in the source). -/
def fieldMap : List (Str × Str) :=
  [(['f','i','r','s','t','_','n','a','m','e'], fld_first_name),
   (['f','i','r','s','t','n','a','m','e'], fld_first_name),
   (['f','i','r','s','t'], fld_first_name),
   (['l','a','s','t','_','n','a','m','e'], fld_last_name),
   (['l','a','s','t','n','a','m','e'], fld_last_name),
   (['l','a','s','t'], fld_last_name),
   (['s','u','r','n','a','m','e'], fld_last_name),
   (['e','m','a','i','l'], fld_email),
   (['e','m','a','i','l','_','a','d','d','r','e','s','s'], fld_email),
   (['e','-','m','a','i','l'], fld_email),
   (['p','h','o','n','e'], fld_phone),
   (['p','h','o','n','e','_','n','u','m','b','e','r'], fld_phone),
   (['t','e','l','e','p','h','o','n','e'], fld_phone),
   (['m','o','b','i','l','e'], fld_phone),
   (['c','o','m','p','a','n','y'], fld_company_name),
   (['c','o','m','p','a','n','y','_','n','a','m','e'], fld_company_name),
   (['o','r','g','a','n','i','z','a','t','i','o','n'], fld_company_name),
   (['o','r','g'], fld_company_name),
   (['b','i','r','t','h','d','a','y'], fld_birthday),
   (['d','a','t','e','_','o','f','_','b','i','r','t','h'], fld_birthday),
   (['d','o','b'], fld_birthday),
   (['b','i','r','t','h','_','d','a','t','e'], fld_birthday),
   (['a','n','n','i','v','e','r','s','a','r','y'], fld_anniversary),
   (['t','a','g','s'], fld_tags),
   (['l','a','b','e','l','s'], fld_tags),
   (['c','a','t','e','g','o','r','i','e','s'], fld_tags),
   (['n','o','t','e','s'], fld_notes),
   (['n','o','t','e'], fld_notes),
   (['d','e','s','c','r','i','p','t','i','o','n'], fld_notes),
   (['n','i','c','k','n','a','m','e'], fld_nickname),
   (['n','i','c','k'], fld_nickname)]

/-- `h.trim().toLowerCase().replace(/\s+/g, "_")`. -/
def normalizeHeader (h : Str) : Str :=
  List.intercalate ['_'] (jsSplitWs (lower (trimStr h)))

/-- JS object lookup `fieldMap[h]`. -/
def lookupField (h : Str) : Option Str :=
  (fieldMap.find? (fun e => e.1 = h)).map (fun e => e.2)

/-- The `colMap` of header indices to canonical field names. -/
def buildColMap (headers : List Str) : List (Nat × Str) :=
  headers.enum.filterMap
    (fun p => (lookupField p.2).map (fun f => (p.1, f)))

/-- The `row` record built for one data row: for each mapped column whose
cell exists and trims non-empty, the trimmed value; a later column mapped
to the same field overwrites (JS object assignment). -/
def rowEntries (colMap : List (Nat × Str)) (cols : List Str) :
    List (Str × Str) :=
  colMap.filterMap
    (fun p =>
      match cols[p.1]? with
      | some v => if trimStr v ≠ [] then some (p.2, trimStr v) else none
      | none => none)

/-- `row[f]` with overwrite semantics: the last entry for `f` wins. -/
def rowGet (row : List (Str × Str)) (f : Str) : Option Str :=
  (row.reverse.find? (fun e => e.1 = f)).map (fun e => e.2)

/-- One entry of `result.duplicates`. -/
structure ImportDup where
  row : Nat
  existing : Contact
  incoming : Str
deriving DecidableEq, Repr

/-- The `ImportResult` record. -/
structure ImportResult where
  created : Nat := 0
  skipped : Nat := 0
  errors : List Str := []
  duplicates : List ImportDup := []
deriving DecidableEq, Repr

def errNeedRows : Str :=
  ['C','S','V',' ','m','u','s','t',' ','h','a','v','e',' ','a',' ','h','e','a','d','e','r',
   ' ','r','o','w',' ','a','n','d',' ','a','t',' ','l','e','a','s','t',' ','o','n','e',' ',
   'd','a','t','a',' ','r','o','w']

/-- `Missing required column: first_name (found: <headers>)`. -/
def msgMissingFirst (headers : List Str) : Str :=
  ['M','i','s','s','i','n','g',' ','r','e','q','u','i','r','e','d',' ','c','o','l','u','m','n',
   ':',' ','f','i','r','s','t','_','n','a','m','e',' ','(','f','o','u','n','d',':',' '] ++
    List.intercalate [',',' '] headers ++ [')']

/-- `Row <n>: missing first_name, skipped`. -/
def rowErrMissingFirst (rowIdx : Nat) : Str :=
  ['R','o','w',' '] ++ Nat.toDigits 10 (rowIdx + 1) ++
    [':',' ','m','i','s','s','i','n','g',' ','f','i','r','s','t','_','n','a','m','e',
     ',',' ','s','k','i','p','p','e','d']

/-- Resolve `row.company_name`: case-insensitive exact match against the
search results, else auto-create. -/
def resolveCompany (db : Db) (cname : Option Str) : Option Nat × Db :=
  match cname with
  | none => (none, db)
  | some n =>
    let companies := getCompanies db.companies (some n)
    match companies.find? (fun co => lower co.name = lower n) with
    | some exact => (some exact.id, db)
    | none =>
      let r := createCompany db n
      (some r.1.id, r.2)

/-- The per-data-row loop of `importContactsCsv` (`rowIdx` is the index of
the row in `lines`, starting at 1). -/
def importLoop (colMap : List (Nat × Str)) :
    Db → ImportResult → Nat → List (List Str) → Db × ImportResult
  | db, res, _, [] => (db, res)
  | db, res, rowIdx, cols :: rest =>
    if cols.length = 0 ∨ (cols.length = 1 ∧ trimStr (cols.headD []) = []) then
      importLoop colMap db res (rowIdx + 1) rest
    else
      let row := rowEntries colMap cols
      match rowGet row fld_first_name with
      | none =>
        importLoop colMap db
          { res with errors := res.errors ++ [rowErrMissingFirst rowIdx],
                     skipped := res.skipped + 1 } (rowIdx + 1) rest
      | some firstName =>
        let dupes := findDuplicates db.contacts
          { email := rowGet row fld_email, first_name := firstName,
            last_name := rowGet row fld_last_name }
        match dupes with
        | d :: _ =>
          let label :=
            trimStr (firstName ++ [' '] ++ (rowGet row fld_last_name).getD [])
          importLoop colMap db
            { res with
                duplicates := res.duplicates ++ [⟨rowIdx + 1, d, label⟩],
                skipped := res.skipped + 1 } (rowIdx + 1) rest
        | [] =>
          let resolved := resolveCompany db (rowGet row fld_company_name)
          let db2 := (createContact resolved.2
            { first_name := firstName,
              last_name := rowGet row fld_last_name,
              nickname := rowGet row fld_nickname,
              email := rowGet row fld_email,
              phone := rowGet row fld_phone,
              company_id := resolved.1,
              birthday := rowGet row fld_birthday,
              anniversary := rowGet row fld_anniversary,
              tags := rowGet row fld_tags,
              notes := rowGet row fld_notes }).2
          importLoop colMap db2
            { res with created := res.created + 1 } (rowIdx + 1) rest

/-- `importContactsCsv(csv)`: parse, validate the header, then the row
loop.  (The source's per-row `try/catch` cannot fire in the model: the only
statement-level failure it guards is a storage error.) -/
def importContactsCsv (db : Db) (csv : Str) : Db × ImportResult :=
  let lines := parseCsvLines csv
  if lines.length < 2 then (db, { errors := [errNeedRows] })
  else
    let headers := (lines.headD []).map normalizeHeader
    let colMap := buildColMap headers
    if (colMap.find? (fun e => e.2 = fld_first_name)).isNone then
      (db, { errors := [msgMissingFirst headers] })
    else importLoop colMap db {} 1 (lines.drop 1)

-- ════════════════════════════════════════════════════════════════════
-- Levenshtein theory (claim C5)
-- ════════════════════════════════════════════════════════════════════

/-- The textbook edit-distance recurrence, used as the reference point for
proving the rolling-row implementation correct. -/
def levRec : Str → Str → Nat
  | [], b => b.length
  | x :: a, [] => (x :: a).length
  | x :: a, y :: b =>
    min (levRec a (y :: b) + 1)
      (min (levRec (x :: a) b + 1)
        (levRec a b + (if x = y then 0 else 1)))
termination_by a b => a.length + b.length
decreasing_by all_goals simp_arith

/-- `Aligns a b n`: there is an alignment of `a` and `b` of cost `n`
(matches cost 0, substitutions / deletions / insertions cost 1). -/
inductive Aligns : Str → Str → Nat → Prop
  | nil : Aligns [] [] 0
  | same {a b n} (x : Char) : Aligns a b n → Aligns (x :: a) (x :: b) n
  | subst {a b n} (x y : Char) : Aligns a b n → Aligns (x :: a) (y :: b) (n + 1)
  | del {a b n} (x : Char) : Aligns a b n → Aligns (x :: a) b (n + 1)
  | ins {a b n} (y : Char) : Aligns a b n → Aligns a (y :: b) (n + 1)

theorem aligns_refl (a : Str) : Aligns a a 0 := by
  induction a with
  | nil => exact .nil
  | cons x a ih => exact .same x ih

theorem aligns_nil_left (b : Str) : Aligns [] b b.length := by
  induction b with
  | nil => exact .nil
  | cons y b ih => exact .ins y ih

theorem aligns_nil_right (a : Str) : Aligns a [] a.length := by
  induction a with
  | nil => exact .nil
  | cons x a ih => exact .del x ih

theorem Aligns.symm {a b : Str} {n : Nat} (h : Aligns a b n) : Aligns b a n := by
  induction h with
  | nil => exact .nil
  | same x _ ih => exact .same x ih
  | subst x y _ ih => exact .subst y x ih
  | del x _ ih => exact .ins x ih
  | ins y _ ih => exact .del y ih

theorem levRec_nil_right (a : Str) : levRec a [] = a.length := by
  cases a <;> simp [levRec]

theorem levRec_nil_left (b : Str) : levRec [] b = b.length := by
  simp [levRec]

/-- Minimality: the recurrence value is a lower bound on alignment cost. -/
theorem levRec_le_of_aligns {a b : Str} {n : Nat} (h : Aligns a b n) :
    levRec a b ≤ n := by
  induction h with
  | nil => simp [levRec]
  | @same a' b' n' x h ih =>
    rw [levRec]
    refine le_trans (le_trans (min_le_right _ _) (min_le_right _ _)) ?_
    simpa using ih
  | @subst a' b' n' x y h ih =>
    rw [levRec]
    refine le_trans (le_trans (min_le_right _ _) (min_le_right _ _)) ?_
    have : (if x = y then 0 else 1) ≤ 1 := by split <;> omega
    omega
  | @del a' b' n' x h ih =>
    cases b' with
    | nil =>
      rw [levRec_nil_right] at ih
      rw [show levRec (x :: a') [] = (x :: a').length from levRec_nil_right _]
      simp only [List.length_cons]
      omega
    | cons y b'' =>
      rw [levRec]
      refine le_trans (min_le_left _ _) ?_
      omega
  | @ins a' b' n' y h ih =>
    cases a' with
    | nil =>
      rw [levRec_nil_left] at ih
      rw [levRec_nil_left]
      simp only [List.length_cons]
      omega
    | cons x a'' =>
      rw [levRec]
      refine le_trans (le_trans (min_le_right _ _) (min_le_left _ _)) ?_
      omega

/-- Achievability: an alignment of exactly the recurrence cost exists. -/
theorem aligns_levRec : ∀ a b : Str, Aligns a b (levRec a b)
  | [], b => by simpa [levRec] using aligns_nil_left b
  | x :: a, [] => by simpa [levRec_nil_right] using aligns_nil_right (x :: a)
  | x :: a, y :: b => by
    have h1 := aligns_levRec a (y :: b)
    have h2 := aligns_levRec (x :: a) b
    have h3 := aligns_levRec a b
    rw [levRec]
    rcases Nat.lt_trichotomy (levRec a (y :: b) + 1)
        (min (levRec (x :: a) b + 1) (levRec a b + (if x = y then 0 else 1)))
      with hlt | heq | hgt
    · rw [min_eq_left (le_of_lt hlt)]
      exact .del x h1
    · rw [min_eq_left (le_of_eq heq)]
      exact .del x h1
    · rw [min_eq_right (le_of_lt hgt)]
      rcases Nat.le_total (levRec (x :: a) b + 1)
          (levRec a b + (if x = y then 0 else 1)) with hle | hge
      · rw [min_eq_left hle]
        exact .ins y h2
      · rw [min_eq_right hge]
        by_cases hxy : x = y
        · subst hxy; simpa using Aligns.same x h3
        · simp only [hxy, if_neg, if_false]
          exact .subst x y h3
termination_by a b => a.length + b.length
decreasing_by all_goals simp_arith

theorem levRec_self (a : Str) : levRec a a = 0 :=
  Nat.le_zero.mp (levRec_le_of_aligns (aligns_refl a))

theorem levRec_symm (a b : Str) : levRec a b = levRec b a :=
  Nat.le_antisymm (levRec_le_of_aligns (aligns_levRec b a).symm)
    (levRec_le_of_aligns (aligns_levRec a b).symm)

/-- Composition of alignments, with cost at most the sum: the engine of the
triangle inequality.  Strong induction on the total length. -/
theorem aligns_comp : ∀ N a b c m n, a.length + b.length + c.length ≤ N →
    Aligns a b m → Aligns b c n → ∃ k, k ≤ m + n ∧ Aligns a c k := by
  intro N
  induction N with
  | zero =>
    intro a b c m n hlen h1 h2
    have ha : a = [] := by cases a <;> simp_all
    have hb : b = [] := by cases b <;> simp_all
    subst ha; subst hb
    cases h1
    exact ⟨n, by omega, h2⟩
  | succ N ih =>
    intro a b c m n hlen h1 h2
    cases h1 with
    | nil => exact ⟨n, by omega, h2⟩
    | @del a' b₀ m' x h1' =>
      obtain ⟨k, hk, hal⟩ := ih a' b c m' n (by simp at hlen ⊢; omega) h1' h2
      exact ⟨k + 1, by omega, .del x hal⟩
    | @same a' b' m₀ x h1' =>
      cases h2 with
      | @same bb c' nn z h2' =>
        obtain ⟨k, hk, hal⟩ :=
          ih a' b' c' m n (by simp at hlen ⊢; omega) h1' h2'
        exact ⟨k, by omega, .same x hal⟩
      | @subst bb c' n₀ z w h2' =>
        obtain ⟨k, hk, hal⟩ :=
          ih a' b' c' m n₀ (by simp at hlen ⊢; omega) h1' h2'
        exact ⟨k + 1, by omega, .subst x w hal⟩
      | @del bb c₀ n₀ z h2' =>
        obtain ⟨k, hk, hal⟩ :=
          ih a' b' c m n₀ (by simp at hlen ⊢; omega) h1' h2'
        exact ⟨k + 1, by omega, .del x hal⟩
      | @ins bb c' n₀ w h2' =>
        obtain ⟨k, hk, hal⟩ :=
          ih (x :: a') (x :: b') c' m n₀ (by simp at hlen ⊢; omega)
            (.same x h1') h2'
        exact ⟨k + 1, by omega, .ins w hal⟩
    | @subst a' b' m' x y h1' =>
      cases h2 with
      | @same bb c' nn z h2' =>
        obtain ⟨k, hk, hal⟩ :=
          ih a' b' c' m' n (by simp at hlen ⊢; omega) h1' h2'
        exact ⟨k + 1, by omega, .subst x y hal⟩
      | @subst bb c' n₀ z w h2' =>
        obtain ⟨k, hk, hal⟩ :=
          ih a' b' c' m' n₀ (by simp at hlen ⊢; omega) h1' h2'
        exact ⟨k + 1, by omega, .subst x w hal⟩
      | @del bb c₀ n₀ z h2' =>
        obtain ⟨k, hk, hal⟩ :=
          ih a' b' c m' n₀ (by simp at hlen ⊢; omega) h1' h2'
        exact ⟨k + 1, by omega, .del x hal⟩
      | @ins bb c' n₀ w h2' =>
        obtain ⟨k, hk, hal⟩ :=
          ih (x :: a') (y :: b') c' (m' + 1) n₀ (by simp at hlen ⊢; omega)
            (.subst x y h1') h2'
        exact ⟨k + 1, by omega, .ins w hal⟩
    | @ins a₀ b' m' y h1' =>
      cases h2 with
      | @same bb c' nn z h2' =>
        obtain ⟨k, hk, hal⟩ :=
          ih a b' c' m' n (by simp at hlen ⊢; omega) h1' h2'
        exact ⟨k + 1, by omega, .ins y hal⟩
      | @subst bb c' n₀ z w h2' =>
        obtain ⟨k, hk, hal⟩ :=
          ih a b' c' m' n₀ (by simp at hlen ⊢; omega) h1' h2'
        exact ⟨k + 1, by omega, .ins w hal⟩
      | @del bb c₀ n₀ z h2' =>
        obtain ⟨k, hk, hal⟩ :=
          ih a b' c m' n₀ (by simp at hlen ⊢; omega) h1' h2'
        exact ⟨k, by omega, hal⟩
      | @ins bb c' n₀ w h2' =>
        obtain ⟨k, hk, hal⟩ :=
          ih a (y :: b') c' (m' + 1) n₀ (by simp at hlen ⊢; omega)
            (.ins y h1') h2'
        exact ⟨k + 1, by omega, .ins w hal⟩

theorem levRec_triangle (a b c : Str) :
    levRec a c ≤ levRec a b + levRec b c := by
  obtain ⟨k, hk, hal⟩ :=
    aligns_comp (a.length + b.length + c.length) a b c _ _ le_rfl
      (aligns_levRec a b) (aligns_levRec b c)
  exact le_trans (levRec_le_of_aligns hal) hk

-- ── Reversal invariance and the snoc form of the recurrence ──

theorem aligns_snoc_same {a b : Str} {n : Nat} (x : Char) (h : Aligns a b n) :
    Aligns (a ++ [x]) (b ++ [x]) n := by
  induction h with
  | nil => exact .same x .nil
  | same y _ ih => exact .same y ih
  | subst y z _ ih => exact .subst y z ih
  | del y _ ih => exact .del y ih
  | ins y _ ih => exact .ins y ih

theorem aligns_snoc_del {a b : Str} {n : Nat} (x : Char) (h : Aligns a b n) :
    Aligns (a ++ [x]) b (n + 1) := by
  induction h with
  | nil => exact .del x .nil
  | same y _ ih => exact .same y ih
  | subst y z _ ih => exact .subst y z ih
  | del y _ ih => exact .del y ih
  | ins y _ ih => exact .ins y ih

theorem aligns_snoc_ins {a b : Str} {n : Nat} (y : Char) (h : Aligns a b n) :
    Aligns a (b ++ [y]) (n + 1) :=
  (aligns_snoc_del y h.symm).symm

theorem aligns_snoc_subst {a b : Str} {n : Nat} (x y : Char)
    (h : Aligns a b n) : Aligns (a ++ [x]) (b ++ [y]) (n + 1) := by
  induction h with
  | nil => exact .subst x y .nil
  | same z _ ih => exact .same z ih
  | subst z w _ ih => exact .subst z w ih
  | del z _ ih => exact .del z ih
  | ins z _ ih => exact .ins z ih

theorem aligns_reverse {a b : Str} {n : Nat} (h : Aligns a b n) :
    Aligns a.reverse b.reverse n := by
  induction h with
  | nil => exact .nil
  | same x _ ih => simpa using aligns_snoc_same x ih
  | subst x y _ ih => simpa using aligns_snoc_subst x y ih
  | del x _ ih => simpa using aligns_snoc_del x ih
  | ins y _ ih => simpa using aligns_snoc_ins y ih

theorem levRec_reverse (a b : Str) :
    levRec a.reverse b.reverse = levRec a b := by
  refine Nat.le_antisymm ?_ ?_
  · exact levRec_le_of_aligns (aligns_reverse (aligns_levRec a b))
  · have h := aligns_reverse (aligns_levRec a.reverse b.reverse)
    simp only [List.reverse_reverse] at h
    exact levRec_le_of_aligns h

theorem levRec_snoc_snoc (u v : Str) (x y : Char) :
    levRec (u ++ [x]) (v ++ [y]) =
      min (levRec u (v ++ [y]) + 1)
        (min (levRec (u ++ [x]) v + 1)
          (levRec u v + (if x = y then 0 else 1))) := by
  have h1 : levRec (u ++ [x]) (v ++ [y])
      = levRec (x :: u.reverse) (y :: v.reverse) := by
    rw [← levRec_reverse (u ++ [x]) (v ++ [y])]
    simp [List.reverse_append]
  have e1 : levRec u.reverse (y :: v.reverse) = levRec u (v ++ [y]) := by
    rw [← levRec_reverse u (v ++ [y])]
    simp [List.reverse_append]
  have e2 : levRec (x :: u.reverse) v.reverse = levRec (u ++ [x]) v := by
    rw [← levRec_reverse (u ++ [x]) v]
    simp [List.reverse_append]
  have e3 : levRec u.reverse v.reverse = levRec u v := levRec_reverse u v
  rw [h1, levRec, e1, e2, e3]

-- ── The rolling-row DP computes the recurrence ──

/-- The prefixes of `a` extending `u` (so `initsAux [] a` lists all
prefixes of `a` including `[]` and `a` itself, in order). -/
def initsAux (u : Str) : Str → List Str
  | [] => [u]
  | x :: a => u :: initsAux (u ++ [x]) a

theorem initsAux_cons (u : Str) : ∀ a : Str, ∃ t, initsAux u a = u :: t := by
  intro a
  cases a <;> simp [initsAux]

theorem initsAux_getLast? (a : Str) : ∀ u : Str,
    (initsAux u a).getLast? = some (u ++ a) := by
  induction a with
  | nil => intro u; simp [initsAux]
  | cons x a ih =>
    intro u
    obtain ⟨t, ht⟩ := initsAux_cons (u ++ [x]) a
    rw [initsAux, List.getLast?_cons, ih (u ++ [x])]
    simp [ht]

theorem rowGo_spec (y : Char) (p : Str) : ∀ (a2 u : Str),
    rowGo y a2 ((initsAux u a2).map (fun w => levRec w p))
        (levRec u (p ++ [y]))
      = ((initsAux u a2).map (fun w => levRec w (p ++ [y]))).tail := by
  intro a2
  induction a2 with
  | nil => intro u; simp [initsAux, rowGo]
  | cons x a' ih =>
    intro u
    obtain ⟨t, ht⟩ := initsAux_cons (u ++ [x]) a'
    have hhead : ((initsAux (u ++ [x]) a').map (fun w => levRec w p)).headD 0
        = levRec (u ++ [x]) p := by
      rw [ht]; simp
    have hmin : min (levRec (u ++ [x]) p + 1)
        (min (levRec u (p ++ [y]) + 1)
          (levRec u p + (if x = y then 0 else 1)))
        = levRec (u ++ [x]) (p ++ [y]) := by
      rw [levRec_snoc_snoc]
      exact (min_left_comm _ _ _).symm
    simp only [initsAux, List.map_cons, rowGo, hhead, List.tail_cons]
    rw [hmin, ih (u ++ [x]), ht]
    simp

theorem rowNext_spec (a p : Str) (y : Char) :
    rowNext a ((initsAux [] a).map (fun w => levRec w p)) y
      = (initsAux [] a).map (fun w => levRec w (p ++ [y])) := by
  obtain ⟨t, ht⟩ := initsAux_cons ([] : Str) a
  have hhead : (((initsAux [] a).map (fun w => levRec w p)).headD 0 + 1)
      = levRec [] (p ++ [y]) := by
    rw [ht]
    simp [levRec_nil_left]
  rw [rowNext, hhead, rowGo_spec y p a []]
  rw [ht]
  simp

theorem levDP_fold (a : Str) : ∀ (b p : Str),
    b.foldl (rowNext a) ((initsAux [] a).map (fun w => levRec w p))
      = (initsAux [] a).map (fun w => levRec w (p ++ b)) := by
  intro b
  induction b with
  | nil => intro p; simp
  | cons y b' ih =>
    intro p
    rw [List.foldl_cons, rowNext_spec a p y, ih (p ++ [y])]
    simp

theorem initsAux_map_length (a : Str) : ∀ u : Str,
    (initsAux u a).map (fun w => w.length)
      = (List.range (a.length + 1)).map (fun i => u.length + i) := by
  induction a with
  | nil =>
    intro u
    rw [List.range_succ_eq_map]
    simp [initsAux]
  | cons x a' ih =>
    intro u
    rw [initsAux, List.map_cons, ih (u ++ [x])]
    simp only [List.length_cons]
    conv_rhs => rw [List.range_succ_eq_map]
    simp only [List.map_cons, List.map_map, Nat.add_zero]
    refine List.cons_eq_cons.mpr ⟨rfl, ?_⟩
    exact List.map_congr_left
      (fun i _ => by simp [Function.comp, List.length_append]; omega)

theorem init_row (a : Str) :
    (initsAux [] a).map (fun w => levRec w []) = List.range (a.length + 1) := by
  have h1 : (initsAux [] a).map (fun w => levRec w [])
      = (initsAux [] a).map (fun w => w.length) :=
    List.map_congr_left (fun w _ => levRec_nil_right w)
  rw [h1, initsAux_map_length a []]
  simp

theorem levDP_eq_levRec (a b : Str) : levDP a b = levRec a b := by
  rw [levDP, ← init_row a, levDP_fold a b []]
  have h := initsAux_getLast? a ([])
  simp only [List.nil_append] at h
  rw [List.getLastD_eq_getLast?, List.getLast?_map, h]
  simp

theorem levenshtein_eq_levRec (a b : Str) : levenshtein a b = levRec a b := by
  rw [levenshtein]
  split_ifs with h1 h2 h3 h4
  · subst h1; exact (levRec_self a).symm
  · rw [List.length_eq_zero] at h2; subst h2
    exact (levRec_nil_left b).symm
  · rw [List.length_eq_zero] at h3; subst h3
    exact (levRec_nil_right a).symm
  · rw [levDP_eq_levRec]; exact levRec_symm b a
  · exact levDP_eq_levRec a b

-- ── Single-character edit scripts ──

/-- One edit: insert, delete, or substitute a single character at some
position. -/
inductive EditStep : Str → Str → Prop
  | ins (u v : Str) (c : Char) : EditStep (u ++ v) (u ++ c :: v)
  | del (u v : Str) (c : Char) : EditStep (u ++ c :: v) (u ++ v)
  | subst (u v : Str) (c d : Char) : EditStep (u ++ c :: v) (u ++ d :: v)

/-- `EditSeq n a b`: `a` can be transformed into `b` by `n` single-character
edits. -/
inductive EditSeq : Nat → Str → Str → Prop
  | refl (a : Str) : EditSeq 0 a a
  | step {a b c : Str} {n : Nat} :
      EditStep a b → EditSeq n b c → EditSeq (n + 1) a c

theorem editStep_cons {u v : Str} (c : Char) (h : EditStep u v) :
    EditStep (c :: u) (c :: v) := by
  cases h with
  | ins u' v' d => exact EditStep.ins (c :: u') v' d
  | del u' v' d => exact EditStep.del (c :: u') v' d
  | subst u' v' d e => exact EditStep.subst (c :: u') v' d e

theorem editSeq_cons {a b : Str} {n : Nat} (c : Char) (h : EditSeq n a b) :
    EditSeq n (c :: a) (c :: b) := by
  induction h with
  | refl a => exact .refl _
  | step s _ ih => exact .step (editStep_cons c s) ih

theorem editSeq_snocStep {a b c : Str} {n : Nat} (h : EditSeq n a b)
    (s : EditStep b c) : EditSeq (n + 1) a c := by
  induction h with
  | refl a => exact .step s (.refl _)
  | step s' _ ih => exact .step s' (ih s)

/-- Every alignment of cost `n` yields an `n`-step edit script. -/
theorem aligns_to_editSeq {a b : Str} {n : Nat} (h : Aligns a b n) :
    EditSeq n a b := by
  induction h with
  | nil => exact .refl _
  | same x _ ih => exact editSeq_cons x ih
  | @subst a' b' n' x y _ ih =>
    exact .step (EditStep.subst [] a' x y) (editSeq_cons y ih)
  | @del a' b' n' x _ ih =>
    exact .step (EditStep.del [] a' x) ih
  | @ins a' b' n' y _ ih =>
    exact editSeq_snocStep ih (EditStep.ins [] b' y)

theorem editStep_aligns {a b : Str} (h : EditStep a b) : Aligns a b 1 := by
  cases h with
  | ins u v c =>
    induction u with
    | nil => exact .ins c (aligns_refl v)
    | cons x u' ih => exact .same x ih
  | del u v c =>
    induction u with
    | nil => exact .del c (aligns_refl v)
    | cons x u' ih => exact .same x ih
  | subst u v c d =>
    induction u with
    | nil => exact .subst c d (aligns_refl v)
    | cons x u' ih => exact .same x ih

/-- Every `n`-step edit script bounds the recurrence value. -/
theorem levRec_le_of_editSeq {a b : Str} {n : Nat} (h : EditSeq n a b) :
    levRec a b ≤ n := by
  induction h with
  | refl a => simp [levRec_self]
  | @step a' b' c' n' s _ ih =>
    have h1 : levRec a' b' ≤ 1 := levRec_le_of_aligns (editStep_aligns s)
    have h3 := levRec_triangle a' b' c'
    omega

/--
**C5.**  The source's rolling-row `levenshtein` computes exactly the minimum
number of single-character insertions, deletions and substitutions
transforming `a` into `b` (achievability plus minimality over `EditSeq`),
and satisfies `levenshtein a a = 0`, symmetry, `levenshtein a [] = |a|`, and
the triangle inequality.
-/
theorem levenshtein_is_edit_distance (a b c : Str) :
    EditSeq (levenshtein a b) a b
    ∧ (∀ n, EditSeq n a b → levenshtein a b ≤ n)
    ∧ levenshtein a a = 0
    ∧ levenshtein a b = levenshtein b a
    ∧ levenshtein a [] = a.length
    ∧ levenshtein a c ≤ levenshtein a b + levenshtein b c := by
  refine ⟨?_, ?_, ?_, ?_, ?_, ?_⟩
  · rw [levenshtein_eq_levRec]
    exact aligns_to_editSeq (aligns_levRec a b)
  · intro n h
    rw [levenshtein_eq_levRec]
    exact levRec_le_of_editSeq h
  · rw [levenshtein_eq_levRec]
    exact levRec_self a
  · rw [levenshtein_eq_levRec, levenshtein_eq_levRec]
    exact levRec_symm a b
  · rw [levenshtein_eq_levRec]
    exact levRec_nil_right a
  · rw [levenshtein_eq_levRec, levenshtein_eq_levRec, levenshtein_eq_levRec]
    exact levRec_triangle a b c

/-- Witness for C5 at a concrete input: `levenshtein "ab" "b"` is bounded by
the one-step script deleting `'a'`, and the achievability part reproduces
it. -/
theorem levenshtein_is_edit_distance_witness :
    levenshtein ['a', 'b'] ['b'] ≤ 1 ∧
      EditSeq (levenshtein ['a', 'b'] ['b']) ['a', 'b'] ['b'] :=
  ⟨(levenshtein_is_edit_distance ['a', 'b'] ['b'] []).2.1 1
      (EditSeq.step (EditStep.del [] ['b'] 'a') (EditSeq.refl ['b'])),
    (levenshtein_is_edit_distance ['a', 'b'] ['b'] []).1⟩

-- ════════════════════════════════════════════════════════════════════
-- `LIKE` / substring infrastructure (claims C1, C3)
-- ════════════════════════════════════════════════════════════════════

theorem startsWithSub_iff : ∀ s p : Str,
    startsWithSub s p = true ↔ ∃ w, s = p ++ w := by
  intro s p
  induction p generalizing s with
  | nil => simp [startsWithSub]
  | cons d p ih =>
    cases s with
    | nil =>
      simp [startsWithSub]
    | cons c s' =>
      rw [startsWithSub]
      simp only [Bool.and_eq_true, decide_eq_true_eq, ih s']
      constructor
      · rintro ⟨rfl, w, rfl⟩
        exact ⟨w, rfl⟩
      · rintro ⟨w, hw⟩
        rw [List.cons_append] at hw
        cases hw
        exact ⟨rfl, w, rfl⟩

theorem hasSub_iff : ∀ s p : Str,
    hasSub s p = true ↔ ∃ u v, s = u ++ p ++ v := by
  intro s p
  induction s with
  | nil =>
    rw [hasSub, startsWithSub_iff]
    constructor
    · rintro ⟨w, hw⟩
      exact ⟨[], w, hw⟩
    · rintro ⟨u, v, huv⟩
      have hu : u = [] := by
        cases u <;> simp_all
      subst hu
      exact ⟨v, by simpa using huv⟩
  | cons c s' ih =>
    rw [hasSub]
    simp only [Bool.or_eq_true, startsWithSub_iff, ih]
    constructor
    · rintro (⟨w, hw⟩ | ⟨u, v, huv⟩)
      · exact ⟨[], w, by simpa using hw⟩
      · exact ⟨c :: u, v, by simp [huv]⟩
    · rintro ⟨u, v, huv⟩
      cases u with
      | nil => exact Or.inl ⟨v, by simpa using huv⟩
      | cons x u' =>
        rw [List.cons_append, List.cons_append] at huv
        cases huv
        exact Or.inr ⟨u', v, rfl⟩

-- Clean equation shapes for `likeM`.

theorem likeM_nil_eq (s : Str) : likeM [] s = s.isEmpty := by
  rw [likeM]

theorem likeM_pct_nil_eq (ps : Str) : likeM ('%' :: ps) [] = likeM ps [] := by
  rw [likeM]; simp [likeStar]

theorem likeM_pct_cons_eq (ps : Str) (c : Char) (s : Str) :
    likeM ('%' :: ps) (c :: s) = (likeM ps (c :: s) || likeM ('%' :: ps) s) := by
  simp [likeM, likeStar]

theorem likeM_lit_nil_eq {c : Char} (ps : Str) (hc : c ≠ '%') :
    likeM (c :: ps) [] = false := by
  rw [likeM]; simp [hc]

theorem likeM_lit_cons_eq {c : Char} (ps : Str) (hc1 : c ≠ '%')
    (hc2 : c ≠ '_') (d : Char) (s : Str) :
    likeM (c :: ps) (d :: s) = (decide (lcChar c = lcChar d) && likeM ps s) := by
  rw [likeM]; simp [hc1, hc2]

/-- `%` alone matches anything. -/
theorem likeM_pct_nil : ∀ s : Str, likeM ['%'] s = true := by
  intro s
  induction s with
  | nil => rw [likeM_pct_nil_eq, likeM_nil_eq]; rfl
  | cons c s' ih => rw [likeM_pct_cons_eq]; simp [ih]

/-- Adding `'%'` in front of a pattern only weakens it. -/
theorem likeM_pct_weaken {ps s : Str} (h : likeM ps s = true) :
    likeM ('%' :: ps) s = true := by
  cases s with
  | nil => rw [likeM_pct_nil_eq]; exact h
  | cons c s' => rw [likeM_pct_cons_eq]; simp [h]

/-- Any character matches itself (as a pattern head). -/
theorem likeM_cons_same {ps s : Str} (c : Char) (h : likeM ps s = true) :
    likeM (c :: ps) (c :: s) = true := by
  by_cases hp : c = '%'
  · subst hp
    rw [likeM_pct_cons_eq]
    simp [likeM_pct_weaken h]
  · by_cases hu : c = '_'
    · subst hu
      rw [likeM]
      simpa using h
    · rw [likeM_lit_cons_eq ps hp hu]
      simp [h]

/-- A `'%'`-headed pattern absorbs any prefix of the string. -/
theorem likeM_pct_prefix {ps s : Str} (u : Str) (h : likeM ps s = true) :
    likeM ('%' :: ps) (u ++ s) = true := by
  induction u with
  | nil => simpa using likeM_pct_weaken h
  | cons x u' ih =>
    rw [List.cons_append, likeM_pct_cons_eq]
    simp [ih]

/-- A literal pattern segment matches itself followed by `%`-absorbed rest. -/
theorem likeM_lit_pct (q w : Str) : likeM (q ++ ['%']) (q ++ w) = true := by
  induction q with
  | nil => simpa using likeM_pct_nil w
  | cons c q' ih => simpa using likeM_cons_same c ih

/-- Soundness of substring containment for `LIKE '%q%'`: any occurrence of
`q` in `s` makes the pattern match. -/
theorem likeM_wrap_of_sub {q s : Str} (hsub : ∃ u v, s = u ++ q ++ v) :
    likeM ('%' :: (q ++ ['%'])) s = true := by
  obtain ⟨u, v, rfl⟩ := hsub
  rw [List.append_assoc]
  exact likeM_pct_prefix u (likeM_lit_pct q v)

/-- Splitting a `'%'`-headed match: some split of the string lets the rest
of the pattern match the tail. -/
theorem likeM_pct_split : ∀ (ps s : Str),
    likeM ('%' :: ps) s = true ↔ ∃ u w, s = u ++ w ∧ likeM ps w = true := by
  intro ps s
  induction s with
  | nil =>
    rw [likeM_pct_nil_eq]
    constructor
    · intro h
      exact ⟨[], [], rfl, h⟩
    · rintro ⟨u, w, huw, h⟩
      have hu : u = [] := by cases u <;> simp_all
      subst hu
      rw [List.nil_append] at huw
      subst huw
      exact h
  | cons c s' ih =>
    rw [likeM_pct_cons_eq]
    simp only [Bool.or_eq_true, ih]
    constructor
    · rintro (h | ⟨u, w, huw, h⟩)
      · exact ⟨[], c :: s', rfl, h⟩
      · exact ⟨c :: u, w, by simp [huw], h⟩
    · rintro ⟨u, w, huw, h⟩
      cases u with
      | nil =>
        rw [List.nil_append] at huw
        subst huw
        exact Or.inl h
      | cons x u' =>
        rw [List.cons_append] at huw
        injection huw with h1 h2
        subst h1
        subst h2
        exact Or.inr ⟨u', w, rfl, h⟩

theorem lower_append (a b : Str) : lower (a ++ b) = lower a ++ lower b :=
  List.map_append lcChar a b

/-- Completeness for wildcard-free literal segments: a match of
`q ++ ['%']` forces a case-folded copy of `q` at the front. -/
theorem likeM_lit_split : ∀ (q w : Str),
    (∀ c ∈ q, c ≠ '%' ∧ c ≠ '_') →
    (likeM (q ++ ['%']) w = true ↔
      ∃ m w₂, w = m ++ w₂ ∧ lower m = lower q) := by
  intro q
  induction q with
  | nil =>
    intro w _
    simp only [List.nil_append, likeM_pct_nil, true_iff]
    exact ⟨[], w, rfl, rfl⟩
  | cons c q' ih =>
    intro w hq
    obtain ⟨hc1, hc2⟩ := hq c (List.mem_cons_self c q')
    have hq' : ∀ d ∈ q', d ≠ '%' ∧ d ≠ '_' :=
      fun d hd => hq d (List.mem_cons_of_mem c hd)
    cases w with
    | nil =>
      rw [List.cons_append, likeM_lit_nil_eq _ hc1]
      constructor
      · intro h
        exact absurd h (by simp)
      · rintro ⟨m, w₂, hmw, hlm⟩
        have hm : m = [] := (List.append_eq_nil.mp hmw.symm).1
        subst hm
        simp [lower] at hlm
    | cons d w' =>
      rw [List.cons_append, likeM_lit_cons_eq _ hc1 hc2,
        Bool.and_eq_true, decide_eq_true_eq, ih w' hq']
      constructor
      · rintro ⟨hcd, m, w₂, rfl, hlm⟩
        refine ⟨d :: m, w₂, rfl, ?_⟩
        simp only [lower, List.map_cons] at hlm ⊢
        rw [hlm, hcd]
      · rintro ⟨m, w₂, hmw, hlm⟩
        cases m with
        | nil => simp [lower] at hlm
        | cons e m' =>
          rw [List.cons_append] at hmw
          injection hmw with h1 h2
          subst h1
          subst h2
          simp only [lower, List.map_cons, List.cons.injEq] at hlm
          exact ⟨hlm.1.symm, m', w₂, rfl, hlm.2⟩

/-- Full characterization of `s LIKE '%q%'` for a wildcard-free `q`:
exactly ASCII-case-insensitive substring containment. -/
theorem likeM_wrap_iff {q s : Str} (hq : ∀ c ∈ q, c ≠ '%' ∧ c ≠ '_') :
    likeM ('%' :: (q ++ ['%'])) s = true ↔
      hasSub (lower s) (lower q) = true := by
  rw [likeM_pct_split, hasSub_iff]
  constructor
  · rintro ⟨u, w, rfl, h⟩
    rw [likeM_lit_split q w hq] at h
    obtain ⟨m, w₂, rfl, hlm⟩ := h
    refine ⟨lower u, lower w₂, ?_⟩
    simp [lower_append, hlm]
  · rintro ⟨u', v', h⟩
    rw [List.append_assoc] at h
    obtain ⟨u, w, rfl, hu, hw⟩ := List.map_eq_append_iff.mp h
    obtain ⟨m, w₂, rfl, hm, hw₂⟩ := List.map_eq_append_iff.mp hw
    refine ⟨u, m ++ w₂, rfl, ?_⟩
    rw [likeM_lit_split q (m ++ w₂) hq]
    exact ⟨m, w₂, rfl, by rw [show lower m = List.map lcChar m from rfl, hm]⟩

-- ════════════════════════════════════════════════════════════════════
-- C10: the company-search cap
-- ════════════════════════════════════════════════════════════════════

/-- A company with a fixed name (used to build concrete tables). -/
def mkCompany (i : Nat) : Company := { id := i, name := ['a'] }

/-- A table of `n` identically named companies. -/
def companyTable (n : Nat) : List Company := (List.range n).map mkCompany

/--
**C10 counterexample.**  The claim quantifies over *every* query string, but
the empty query is falsy in `getCompanies`, skips the `LIMIT 100` search
statement, and returns the full listing: with 101 companies and limit 101,
`searchCompanies("", 101)` returns 101 > min(101, 100) results.
-/
theorem searchCompanies_cap_counterexample :
    ¬ ((searchCompanies (companyTable 101) [] 101).length ≤ min 101 100) := by
  have hlen : (searchCompanies (companyTable 101) [] 101).length = 101 := by
    rw [searchCompanies, getCompanies]
    simp only [ne_eq, not_true_eq_false, if_false, reduceIte]
    rw [List.length_take, List.length_mergeSort, companyTable,
      List.length_map, List.length_range]
    omega
  omega

/--
**C10 (amended).**  For every NON-EMPTY query string and every requested
limit `n`, `searchCompanies(query, n)` returns at most `min n 100`
companies: the prepared search statement caps its result at 100 rows and
the caller's limit is applied by slicing.  (The empty query bypasses the
search statement and with it the 100-row cap.)
-/
theorem searchCompanies_cap (db : List Company) (q : Str) (n : Nat)
    (hq : q ≠ []) : (searchCompanies db q n).length ≤ min n 100 := by
  rw [searchCompanies, getCompanies]
  simp only [hq, if_true, reduceIte, ne_eq, not_false_eq_true]
  rw [List.length_take, List.length_take]
  omega

/-- C10 witness at a concrete input. -/
theorem searchCompanies_cap_witness :
    (['a'] : Str) ≠ [] ∧
      (searchCompanies (companyTable 3) ['a'] 5).length ≤ min 5 100 :=
  ⟨by decide, searchCompanies_cap (companyTable 3) ['a'] 5 (by decide)⟩

-- ════════════════════════════════════════════════════════════════════
-- C9: CSV export
-- ════════════════════════════════════════════════════════════════════

/-- A contact with a fixed name (used to build concrete tables). -/
def mkC (i : Nat) : Contact := { id := i, first_name := ['a'] }

/-- A table of `n` identically named contacts. -/
def contactTable (n : Nat) : List Contact := (List.range n).map mkC

theorem contactTable_sorted (n : Nat) :
    sortedContacts (contactTable n) = contactTable n := by
  apply List.mergeSort_of_sorted
  rw [contactTable, List.pairwise_map]
  exact List.pairwise_of_forall (fun a b => rfl)

/--
**C9 counterexample.**  The claim says export has *no query limit*, but the
source fetches `getContacts(undefined, 100_000)`: with 100,001 contacts the
`rows` array has only 100,001 entries (header + 100,000 data rows) instead
of 100,002, and the last contact in name order is dropped.
-/
theorem exportContactsCsv_counterexample :
    (exportContactsCsvRows (contactTable 100001)).length
        ≠ (contactTable 100001).length + 1
    ∧ mkC 100000 ∉ getContacts (contactTable 100001) none 100000 := by
  constructor
  · have h1 : (exportContactsCsvRows (contactTable 100001)).length
        = 1 + (100000 ⊓ 100001) := by
      rw [exportContactsCsvRows, getContacts]
      rw [List.length_cons, List.length_map, List.length_take]
      rw [sortedContacts, List.length_mergeSort]
      rw [contactTable, List.length_map, List.length_range]
      omega
    have h2 : (contactTable 100001).length = 100001 := by
      rw [contactTable, List.length_map, List.length_range]
    omega
  · rw [getContacts, contactTable_sorted 100001]
    intro hmem
    rw [contactTable, ← List.map_take, List.take_range] at hmem
    obtain ⟨i, hi, hieq⟩ := List.mem_map.mp hmem
    have hid : i = 100000 := congrArg Contact.id hieq
    subst hid
    rw [List.mem_range] at hi
    omega

/--
**C9 (amended).**  `exportContactsCsv` serializes the contacts returned by
the plain listing with `LIMIT 100_000` — i.e. all of them whenever the
table has at most 100,000 rows — one CSV row per contact after the fixed
header `first_name,last_name,email,phone,company_name,birthday,anniversary,tags,notes`;
each field goes through `escCsv` independently and a missing value renders
as the empty string.
-/
theorem exportContactsCsv_spec (db : List Contact) (h : db.length ≤ 100000) :
    (exportContactsCsvRows db).head? = some exportHeader
    ∧ (exportContactsCsvRows db).tail = (sortedContacts db).map contactCsvRow
    ∧ (∀ c ∈ db, contactCsvRow c ∈ (exportContactsCsvRows db).tail)
    ∧ (∀ c : Contact, contactCsvRow c = List.intercalate [',']
        [escCsv (some c.first_name), escCsv c.last_name, escCsv c.email,
         escCsv c.phone, escCsv c.company_name, escCsv c.birthday,
         escCsv c.anniversary, escCsv c.tags, escCsv c.notes])
    ∧ escCsv none = [] := by
  have htake : (sortedContacts db).take 100000 = sortedContacts db := by
    apply List.take_of_length_le
    rw [sortedContacts, List.length_mergeSort]
    exact h
  refine ⟨?_, ?_, ?_, fun c => rfl, rfl⟩
  · rw [exportContactsCsvRows]
    rfl
  · rw [exportContactsCsvRows, getContacts, htake]
    rfl
  · intro c hc
    rw [exportContactsCsvRows, getContacts, htake]
    simp only [List.tail_cons]
    exact List.mem_map_of_mem contactCsvRow (List.mem_mergeSort.mpr hc)

/-- C9 witness at a concrete one-contact database. -/
theorem exportContactsCsv_spec_witness :
    (contactTable 1).length ≤ 100000 ∧
      (exportContactsCsvRows (contactTable 1)).head? = some exportHeader :=
  ⟨by decide, (exportContactsCsv_spec (contactTable 1) (by decide)).1⟩

-- ════════════════════════════════════════════════════════════════════
-- C8: blank queries
-- ════════════════════════════════════════════════════════════════════

/--
**C8 counterexample.**  The claim covers the *empty* query, but in
`getContacts` the empty string is falsy, so `searchContacts("")` takes the
plain listing branch and returns stored contacts instead of `[]`.
-/
theorem blank_query_counterexample :
    searchContacts [mkC 0] [] 20 ≠ [] := by
  have h : searchContacts [mkC 0] [] 20 = [mkC 0] := by
    rw [searchContacts, getContacts]
    simp only [ne_eq, not_true_eq_false, if_false, reduceIte]
    rw [sortedContacts, List.mergeSort_of_sorted (by simp)]
    rfl
  rw [h]
  simp

/--
**C8 (amended).**  `searchContactsSmart` returns `[]` for every blank
(empty or whitespace-only) query without consulting the table (the result
is `[]` for every database).  Through the `searchContacts` entry point this
holds for whitespace-only queries, which are truthy; the *empty* query is
treated as an absent search argument and yields the unfiltered first-`limit`
listing instead.
-/
theorem blank_query_behavior (q : Str) (db : List Contact) (limit : Nat) :
    (trimStr q = [] → searchContactsSmart db q limit = [])
    ∧ (q ≠ [] → trimStr q = [] → searchContacts db q limit = [])
    ∧ searchContacts db [] limit = (sortedContacts db).take limit := by
  refine ⟨?_, ?_, ?_⟩
  · intro h
    rw [searchContactsSmart]
    simp [h]
  · intro hq h
    rw [searchContacts, getContacts]
    simp only [hq, if_true, reduceIte, ne_eq, not_false_eq_true]
    rw [searchContactsSmart]
    simp [h]
  · rw [searchContacts, getContacts]
    simp

/-- C8 witness: a whitespace-only query on a one-contact table. -/
theorem blank_query_behavior_witness :
    trimStr [' '] = [] ∧ searchContactsSmart [mkC 0] [' '] 20 = [] :=
  ⟨by decide, (blank_query_behavior [' '] [mkC 0] 20).1 (by decide)⟩

-- ════════════════════════════════════════════════════════════════════
-- C6: duplicate detection
-- ════════════════════════════════════════════════════════════════════

/-- The claim's email probe: fires only when an email is supplied and
non-empty, and compares exactly and case-sensitively. -/
def emailProbe (q : DupQuery) (c : Contact) : Prop :=
  ∃ e, q.email = some e ∧ e ≠ [] ∧ c.email = some e

/-- The claim's name probe: case-insensitive equality on first and last
name, with a missing last name read as the empty string on both sides. -/
def nameProbe (q : DupQuery) (c : Contact) : Prop :=
  lower c.first_name = lower q.first_name
    ∧ lower (coalesceStr c.last_name) = lower (coalesceStr q.last_name)

/-- The invariant-carrying induction behind `dedupById`. -/
theorem dedupById_go (l : List Contact) : ∀ acc : List Contact,
    (acc.map (fun c => c.id)).Nodup →
    (∀ c d : Contact, (c ∈ acc ∨ c ∈ l) → (d ∈ acc ∨ d ∈ l) →
      c.id = d.id → c = d) →
    ((l.foldl mapSetById acc).map (fun c => c.id)).Nodup
    ∧ (∀ c, c ∈ l.foldl mapSetById acc ↔ c ∈ acc ∨ c ∈ l) := by
  induction l with
  | nil =>
    intro acc hnd _
    exact ⟨hnd, fun c => by simp⟩
  | cons x l' ih =>
    intro acc hnd hcoh
    rw [List.foldl_cons]
    by_cases hx : acc.any (fun d => d.id = x.id)
    · -- the id is already present: the Map keeps the slot, and by id
      -- coherence the overwrite is the identity
      have hxacc : x ∈ acc := by
        obtain ⟨d, hd, hdid⟩ := List.any_eq_true.mp hx
        simp only [decide_eq_true_eq] at hdid
        have hdx : d = x := hcoh d x (Or.inl hd)
          (Or.inr (List.mem_cons_self x l')) hdid
        rwa [hdx] at hd
      have hset : mapSetById acc x = acc := by
        rw [mapSetById, if_pos hx]
        refine List.map_congr_left (fun d hd => ?_) |>.trans (List.map_id acc)
        by_cases h : d.id = x.id
        · have : d = x := hcoh d x (Or.inl hd) (Or.inr (List.mem_cons_self x l')) h
          simp [h, this]
        · simp [h]
      rw [hset]
      obtain ⟨h1, h2⟩ := ih acc hnd
        (fun c d hc hd h => hcoh c d
          (hc.imp id (List.mem_cons_of_mem x)) (hd.imp id (List.mem_cons_of_mem x)) h)
      refine ⟨h1, fun c => (h2 c).trans ?_⟩
      constructor
      · rintro (h | h)
        · exact Or.inl h
        · exact Or.inr (List.mem_cons_of_mem x h)
      · rintro (h | h)
        · exact Or.inl h
        · rcases List.mem_cons.mp h with rfl | h
          · exact Or.inl hxacc
          · exact Or.inr h
    · -- fresh id: appended at the end
      have hset : mapSetById acc x = acc ++ [x] := by
        rw [mapSetById, if_neg hx]
      rw [hset]
      have hnd' : ((acc ++ [x]).map (fun c => c.id)).Nodup := by
        rw [List.map_append, List.nodup_append]
        refine ⟨hnd, by simp, ?_⟩
        intro i hi hix
        simp only [List.map_cons, List.map_nil, List.mem_singleton] at hix
        subst hix
        obtain ⟨d, hd, hdid⟩ := List.mem_map.mp hi
        exact hx (List.any_eq_true.mpr ⟨d, hd, by simp [hdid]⟩)
      obtain ⟨h1, h2⟩ := ih (acc ++ [x]) hnd'
        (fun c d hc hd h => hcoh c d
          (by rcases hc with hc | hc
              · rcases List.mem_append.mp hc with hc | hc
                · exact Or.inl hc
                · exact Or.inr (by simpa using List.mem_cons.mpr (Or.inl (by simpa using hc)))
              · exact Or.inr (List.mem_cons_of_mem x hc))
          (by rcases hd with hd | hd
              · rcases List.mem_append.mp hd with hd | hd
                · exact Or.inl hd
                · exact Or.inr (by simpa using List.mem_cons.mpr (Or.inl (by simpa using hd)))
              · exact Or.inr (List.mem_cons_of_mem x hd)) h)
      refine ⟨h1, fun c => (h2 c).trans ?_⟩
      constructor
      · rintro (h | h)
        · rcases List.mem_append.mp h with h | h
          · exact Or.inl h
          · exact Or.inr (by simpa using List.mem_cons.mpr (Or.inl (by simpa using h)))
        · exact Or.inr (List.mem_cons_of_mem x h)
      · rintro (h | h)
        · exact Or.inl (List.mem_append.mpr (Or.inl h))
        · rcases List.mem_cons.mp h with rfl | h
          · exact Or.inl (by simp)
          · exact Or.inr h

/--
**C6.**  `findDuplicates({email, first_name, last_name})` returns, with no
id repeated, exactly the union of (a) the email probe — contacts whose
email equals a supplied non-empty email exactly and case-sensitively — and
(b) the always-run name probe — case-insensitive equality on first and last
name with a missing last name read as the empty string.  (The table is
assumed to have unique ids, the primary-key invariant.)
-/
theorem findDuplicates_spec (db : List Contact) (q : DupQuery)
    (hids : (db.map (fun c => c.id)).Nodup) :
    ((findDuplicates db q).map (fun c => c.id)).Nodup
    ∧ (∀ c, c ∈ findDuplicates db q ↔
        c ∈ db ∧ (emailProbe q c ∨ nameProbe q c)) := by
  have hinj : ∀ c ∈ db, ∀ d ∈ db, c.id = d.id → c = d :=
    fun c hc d hd h => List.inj_on_of_nodup_map hids hc hd h
  rw [findDuplicates]
  set byEmail := (match q.email with
    | some e => if e ≠ [] then db.filter (emailDupMatch e) else []
    | none => []) with hbe
  set byName := db.filter (nameDupMatch q.first_name (coalesceStr q.last_name))
    with hbn
  have hbe_mem : ∀ c, c ∈ byEmail ↔ c ∈ db ∧ emailProbe q c := by
    intro c
    rw [hbe, emailProbe]
    match hqe : q.email with
    | none => simp
    | some e =>
      by_cases he : e = []
      · simp [he]
      · simp only [he, ne_eq, not_false_eq_true, if_true, reduceIte,
          List.mem_filter]
        rw [emailDupMatch.eq_def]
        constructor
        · rintro ⟨hdb, hm⟩
          refine ⟨hdb, e, rfl, he, ?_⟩
          match hce : c.email with
          | none => rw [hce] at hm; exact absurd hm (by simp)
          | some s =>
            rw [hce] at hm
            simp only [Bool.and_eq_true, decide_eq_true_eq] at hm
            rw [hm.1]
        · rintro ⟨hdb, e', he', hne', hce⟩
          injection he' with he'
          subst he'
          refine ⟨hdb, ?_⟩
          rw [hce]
          simp [hne']
  have hbn_mem : ∀ c, c ∈ byName ↔ c ∈ db ∧ nameProbe q c := by
    intro c
    rw [hbn, List.mem_filter, nameDupMatch, nameProbe]
    simp
  have hcoh : ∀ c d : Contact,
      (c ∈ ([] : List Contact) ∨ c ∈ byEmail ++ byName) →
      (d ∈ ([] : List Contact) ∨ d ∈ byEmail ++ byName) →
      c.id = d.id → c = d := by
    intro c d hc hd h
    have hc' : c ∈ db := by
      rcases hc with hc | hc
      · simp at hc
      · rcases List.mem_append.mp hc with hc | hc
        · exact ((hbe_mem c).mp hc).1
        · exact ((hbn_mem c).mp hc).1
    have hd' : d ∈ db := by
      rcases hd with hd | hd
      · simp at hd
      · rcases List.mem_append.mp hd with hd | hd
        · exact ((hbe_mem d).mp hd).1
        · exact ((hbn_mem d).mp hd).1
    exact hinj c hc' d hd' h
  obtain ⟨h1, h2⟩ := dedupById_go (byEmail ++ byName) [] (by simp) hcoh
  rw [dedupById]
  refine ⟨h1, fun c => (h2 c).trans ?_⟩
  simp only [List.not_mem_nil, false_or, List.mem_append]
  rw [hbe_mem c, hbn_mem c]
  constructor
  · rintro (⟨hdb, h⟩ | ⟨hdb, h⟩)
    · exact ⟨hdb, Or.inl h⟩
    · exact ⟨hdb, Or.inr h⟩
  · rintro ⟨hdb, h | h⟩
    · exact Or.inl ⟨hdb, h⟩
    · exact Or.inr ⟨hdb, h⟩

/-- C6 witness: one contact matched by both probes appears exactly once. -/
theorem findDuplicates_spec_witness :
    (([{ id := 1, first_name := ['J','o'],
         email := some ['a','@','b'] }] : List Contact).map
      (fun c => c.id)).Nodup
    ∧ ((findDuplicates
          [{ id := 1, first_name := ['J','o'], email := some ['a','@','b'] }]
          { email := some ['a','@','b'], first_name := ['j','O'] }).map
        (fun c => c.id)).Nodup :=
  ⟨by decide,
    (findDuplicates_spec
      [{ id := 1, first_name := ['J','o'], email := some ['a','@','b'] }]
      { email := some ['a','@','b'], first_name := ['j','O'] }
      (by decide)).1⟩

-- ════════════════════════════════════════════════════════════════════
-- C4: CSV round trip
-- ════════════════════════════════════════════════════════════════════

-- Step lemmas for the parser, one per transition of the character loop.

theorem parse_nil (q : Bool) (field : Str) (cur : List Str)
    (rows : List (List Str)) :
    parseCsvAux [] q field cur rows =
      if (cur ++ [field]).length > 0 && !((cur ++ [field]).length = 1 && field = [])
      then rows ++ [cur ++ [field]] else rows := by
  cases q <;> rfl

theorem parse_true_escq (rest : Str) (field : Str) (cur : List Str)
    (rows : List (List Str)) :
    parseCsvAux ('"' :: '"' :: rest) true field cur rows =
      parseCsvAux rest true (field ++ ['"']) cur rows := rfl

theorem parse_true_closeq {rest : Str} (h : rest.head? ≠ some '"')
    (field : Str) (cur : List Str) (rows : List (List Str)) :
    parseCsvAux ('"' :: rest) true field cur rows =
      parseCsvAux rest false field cur rows := by
  cases rest with
  | nil => rfl
  | cons c rest' =>
    cases hc : c == '"' with
    | true => exact absurd (by simpa using hc) (by simpa using h)
    | false =>
      have hc' : c ≠ '"' := by simpa using hc
      simp [parseCsvAux, hc']

theorem parse_true_other {c : Char} (h : c ≠ '"') (rest : Str) (field : Str)
    (cur : List Str) (rows : List (List Str)) :
    parseCsvAux (c :: rest) true field cur rows =
      parseCsvAux rest true (field ++ [c]) cur rows := by
  simp [parseCsvAux, h]

theorem parse_false_quote (rest : Str) (field : Str) (cur : List Str)
    (rows : List (List Str)) :
    parseCsvAux ('"' :: rest) false field cur rows =
      parseCsvAux rest true field cur rows := by
  simp [parseCsvAux]

theorem parse_false_comma (rest : Str) (field : Str) (cur : List Str)
    (rows : List (List Str)) :
    parseCsvAux (',' :: rest) false field cur rows =
      parseCsvAux rest false [] (cur ++ [field]) rows := by
  simp [parseCsvAux]

theorem parse_false_newline (rest : Str) (field : Str) (cur : List Str)
    (rows : List (List Str)) :
    parseCsvAux ('\n' :: rest) false field cur rows =
      parseCsvAux rest false [] []
        (if (cur ++ [field]).length > 0 then rows ++ [cur ++ [field]] else rows) := by
  simp [parseCsvAux]

theorem parse_false_cr (rest : Str) (field : Str) (cur : List Str)
    (rows : List (List Str)) :
    parseCsvAux ('\r' :: rest) false field cur rows =
      parseCsvAux rest false field cur rows := by
  simp [parseCsvAux]

theorem parse_false_other {c : Char} (h1 : c ≠ '"') (h2 : c ≠ ',')
    (h3 : c ≠ '\n') (h4 : c ≠ '\r') (rest : Str) (field : Str)
    (cur : List Str) (rows : List (List Str)) :
    parseCsvAux (c :: rest) false field cur rows =
      parseCsvAux rest false (field ++ [c]) cur rows := by
  simp [parseCsvAux, h1, h2, h3, h4]

/-- The finished-rows accumulator is write-only: it factors out. -/
theorem parseCsvAux_acc_aux : ∀ (n : Nat) (s : Str), s.length ≤ n →
    ∀ (q : Bool) (field : Str) (cur : List Str) (r1 r2 : List (List Str)),
    parseCsvAux s q field cur (r1 ++ r2) =
      r1 ++ parseCsvAux s q field cur r2 := by
  intro n
  induction n with
  | zero =>
    intro s hs q field cur r1 r2
    have : s = [] := List.length_eq_zero.mp (Nat.le_zero.mp hs)
    subst this
    rw [parse_nil, parse_nil]
    split <;> simp
  | succ n ih =>
    intro s hs q field cur r1 r2
    cases s with
    | nil =>
      rw [parse_nil, parse_nil]
      split <;> simp
    | cons c rest =>
      rw [List.length_cons] at hs
      have hrest : rest.length ≤ n := by omega
      cases q with
      | true =>
        by_cases hc : c = '"'
        · subst hc
          cases rest with
          | nil =>
            rw [parse_true_closeq (by simp), parse_true_closeq (by simp)]
            rw [parse_nil, parse_nil]
            split <;> simp
          | cons d rest' =>
            by_cases hd : d = '"'
            · subst hd
              rw [parse_true_escq, parse_true_escq,
                ih rest' (by simp at hrest ⊢; omega)]
            · rw [parse_true_closeq (by simpa using hd),
                parse_true_closeq (by simpa using hd), ih _ hrest]
        · rw [parse_true_other hc, parse_true_other hc, ih _ hrest]
      | false =>
        by_cases hc1 : c = '"'
        · subst hc1
          rw [parse_false_quote, parse_false_quote, ih _ hrest]
        · by_cases hc2 : c = ','
          · subst hc2
            rw [parse_false_comma, parse_false_comma, ih _ hrest]
          · by_cases hc3 : c = '\n'
            · subst hc3
              rw [parse_false_newline, parse_false_newline]
              split <;> rename_i h
              · rw [show r1 ++ r2 ++ [cur ++ [field]]
                    = r1 ++ (r2 ++ [cur ++ [field]]) from by simp,
                  ih _ hrest]
              · rw [ih _ hrest]
            · by_cases hc4 : c = '\r'
              · subst hc4
                rw [parse_false_cr, parse_false_cr, ih _ hrest]
              · rw [parse_false_other hc1 hc2 hc3 hc4,
                  parse_false_other hc1 hc2 hc3 hc4, ih _ hrest]

theorem parseCsvAux_acc (s : Str) (q : Bool) (field : Str)
    (cur : List Str) (r1 r2 : List (List Str)) :
    parseCsvAux s q field cur (r1 ++ r2) =
      r1 ++ parseCsvAux s q field cur r2 :=
  parseCsvAux_acc_aux s.length s le_rfl q field cur r1 r2

/-- Consuming an unquoted field body. -/
theorem parse_plain_field : ∀ (f : Str), ',' ∉ f → '"' ∉ f →
    '\n' ∉ f → '\r' ∉ f →
    ∀ (rest : Str) (field : Str) (cur : List Str) (rows : List (List Str)),
    parseCsvAux (f ++ rest) false field cur rows =
      parseCsvAux rest false (field ++ f) cur rows := by
  intro f
  induction f with
  | nil => intro _ _ _ _ rest field cur rows; simp
  | cons c f' ih =>
    intro h1 h2 h3 h4 rest field cur rows
    simp only [List.mem_cons, not_or] at h1 h2 h3 h4
    rw [List.cons_append,
      parse_false_other (fun h => h2.1 h.symm) (fun h => h1.1 h.symm)
        (fun h => h3.1 h.symm) (fun h => h4.1 h.symm),
      ih h1.2 h2.2 h3.2 h4.2]
    simp

/-- Consuming a quoted field body (with doubled quotes). -/
theorem parse_quoted_body : ∀ (f : Str) (rest : Str) (field : Str)
    (cur : List Str) (rows : List (List Str)),
    parseCsvAux (dupQuotes f ++ '"' :: rest) true field cur rows =
      parseCsvAux ('"' :: rest) true (field ++ f) cur rows := by
  intro f
  induction f with
  | nil => intro rest field cur rows; simp [dupQuotes]
  | cons c f' ih =>
    intro rest field cur rows
    by_cases hc : c = '"'
    · subst hc
      rw [dupQuotes, if_pos rfl, List.cons_append, List.cons_append,
        parse_true_escq, ih]
      simp
    · rw [dupQuotes, if_neg hc, List.cons_append, parse_true_other hc, ih]
      simp

/-- Consuming one encoded field: the parser accumulates exactly the
original field value and continues at `rest`. -/
theorem parse_encoded_field (f : Str) (hr : '\r' ∉ f) {rest : Str}
    (hrest : rest.head? ≠ some '"') (cur : List Str) (rows : List (List Str)) :
    parseCsvAux (escCsv (some f) ++ rest) false [] cur rows =
      parseCsvAux rest false f cur rows := by
  rw [escCsv]
  by_cases hnil : f = []
  · subst hnil; simp
  · rw [if_neg hnil]
    by_cases hspec : f.contains ',' || f.contains '"' || f.contains '\n'
    · rw [if_pos hspec]
      rw [List.cons_append, List.append_assoc, List.singleton_append,
        parse_false_quote, parse_quoted_body, parse_true_closeq hrest]
      simp
    · rw [if_neg hspec]
      simp only [Bool.or_eq_true, not_or, Bool.not_eq_true] at hspec
      rw [parse_plain_field f (by simpa using hspec.1.1)
        (by simpa using hspec.1.2) (by simpa using hspec.2) hr rest [] cur rows]
      simp

theorem getLastD_irrel {α : Type} {r : List α} (h : r ≠ []) (a b : α) :
    r.getLastD a = r.getLastD b := by
  rw [List.getLastD_eq_getLast?, List.getLastD_eq_getLast?,
    List.getLast?_eq_getLast r h]
  simp

theorem dropLast_append_getLastD {α : Type} {r : List α} (h : r ≠ []) (d : α) :
    r.dropLast ++ [r.getLastD d] = r := by
  rw [List.getLastD_eq_getLast?, List.getLast?_eq_getLast r h]
  simpa using List.dropLast_append_getLast h

theorem intercalate_cons_ne {α : Type} (s a : List α) {l : List (List α)}
    (h : l ≠ []) :
    List.intercalate s (a :: l) = a ++ s ++ List.intercalate s l := by
  cases l with
  | nil => simp_all
  | cons b l' =>
    simp [List.intercalate, List.intersperse]

/-- Consuming one encoded row: all its fields land in `cur` except the
last, which is the live field when `rest` resumes. -/
theorem parse_encoded_row : ∀ (r : List Str), r ≠ [] →
    (∀ f ∈ r, '\r' ∉ f) →
    ∀ {rest : Str}, rest.head? ≠ some '"' →
    ∀ (cur : List Str) (rows : List (List Str)),
    parseCsvAux (encodeCsvRow r ++ rest) false [] cur rows =
      parseCsvAux rest false (r.getLastD []) (cur ++ r.dropLast) rows := by
  intro r
  induction r with
  | nil => intro h; exact absurd rfl h
  | cons f r' ih =>
    intro _ hcr rest hrest cur rows
    by_cases hr' : r' = []
    · subst hr'
      rw [show encodeCsvRow [f] = escCsv (some f) by
          simp [encodeCsvRow, List.intercalate],
        parse_encoded_field f (hcr f (by simp)) hrest cur rows]
      simp
    · have henc : encodeCsvRow (f :: r') = escCsv (some f) ++ [','] ++ encodeCsvRow r' := by
        rw [encodeCsvRow, List.map_cons, intercalate_cons_ne _ _ (by simpa using hr')]
        rfl
      rw [henc, List.append_assoc, List.append_assoc,
        parse_encoded_field f (hcr f (by simp)) (by simp) cur rows,
        List.singleton_append, parse_false_comma,
        ih hr' (fun g hg => hcr g (by simp [hg])) hrest (cur ++ [f]) rows,
        List.getLastD_cons, getLastD_irrel hr' f [],
        List.dropLast_cons_of_ne_nil hr', List.append_assoc]
      rfl

/-- Consuming the encoded rows: each `\n` closes one original row. -/
theorem parse_encoded_rows : ∀ (rows : List (List Str)), rows ≠ [] →
    (∀ r ∈ rows, r ≠ []) →
    (∀ r ∈ rows, ∀ f ∈ r, '\r' ∉ f) →
    rows.getLast? ≠ some [[]] →
    ∀ acc : List (List Str),
    parseCsvAux (encodeCsvRows rows) false [] [] acc = acc ++ rows := by
  intro rows
  induction rows with
  | nil => intro h; exact absurd rfl h
  | cons r rows' ih =>
    intro _ hne hcr hlast acc
    by_cases hr' : rows' = []
    · subst hr'
      have hrne := hne r (by simp)
      have hrnn : r ≠ [[]] := by simpa using hlast
      rw [show encodeCsvRows [r] = encodeCsvRow r by
          simp [encodeCsvRows, List.intercalate]]
      have h1 : encodeCsvRow r ++ ([] : Str) = encodeCsvRow r := by simp
      rw [← h1, parse_encoded_row r hrne
        (fun f hf => hcr r (by simp) f hf) (by simp) [] acc,
        parse_nil, List.nil_append, dropLast_append_getLastD hrne ([] : Str)]
      have hcond : (r.length > 0 && !(r.length = 1 && r.getLastD [] = [])) = true := by
        cases r with
        | nil => exact absurd rfl hrne
        | cons f r2 =>
          cases r2 with
          | nil =>
            have hf : f ≠ [] := by
              intro h
              exact hrnn (by rw [h])
            simp [List.getLastD, hf]
          | cons g r3 =>
            have hlen : r3.length + 1 + 1 ≠ 1 := by omega
            simp [hlen]
      rw [if_pos hcond]
    · have henc : encodeCsvRows (r :: rows')
          = encodeCsvRow r ++ ['\n'] ++ encodeCsvRows rows' := by
        rw [encodeCsvRows, List.map_cons, intercalate_cons_ne _ _ (by simpa using hr')]
        rfl
      rw [henc, List.append_assoc,
        parse_encoded_row r (hne r (by simp))
          (fun f hf => hcr r (by simp) f hf) (by simp) [] acc,
        List.singleton_append, parse_false_newline,
        List.nil_append, dropLast_append_getLastD (hne r (by simp))]
      have hcond : (r.length > 0) := by
        have := hne r (by simp)
        exact List.length_pos.mpr this
      rw [if_pos (by simpa using hcond)]
      have hlast' : rows'.getLast? ≠ some [[]] := by
        cases rows' with
        | nil => exact absurd rfl hr'
        | cons b l => rwa [List.getLast?_cons_cons] at hlast
      rw [ih hr' (fun g hg => hne g (by simp [hg]))
        (fun g hg => hcr g (by simp [hg])) hlast' (acc ++ [r])]
      simp

/--
**C4 counterexample.**  The round-trip law fails as universally stated: a
single empty field round-trips to no rows at all (the parser suppresses a
final lone empty field), and a bare carriage return inside an unquoted
field is dropped by the parser but not quoted by the encoder.
-/
theorem csv_roundtrip_counterexample :
    parseCsvLines (encodeCsvRows [[[]]]) ≠ [[[]]]
    ∧ parseCsvLines (encodeCsvRows [[['a', '\r', 'b']]]) ≠ [[['a', '\r', 'b']]] := by
  constructor <;> decide

/--
**C4 (amended).**  `parseCsvLines (encode rows) = rows` for every list of
rows of string fields in which every row has at least one field, no field
contains a carriage return, and the final row is not a single empty field;
in particular `[[s]]` round-trips for every non-empty `\r`-free `s`,
including fields with commas, quotes and newlines.
-/
theorem csv_roundtrip (rows : List (List Str))
    (hne : ∀ r ∈ rows, r ≠ [])
    (hcr : ∀ r ∈ rows, ∀ f ∈ r, '\r' ∉ f)
    (hlast : rows.getLast? ≠ some [[]]) :
    parseCsvLines (encodeCsvRows rows) = rows := by
  by_cases h : rows = []
  · subst h; rfl
  · rw [parseCsvLines, parse_encoded_rows rows h hne hcr hlast []]
    rfl

/-- C4 witness: a two-row table with embedded comma, quote and newline. -/
theorem csv_roundtrip_witness :
    parseCsvLines (encodeCsvRows
        [[['a', ',', 'b'], ['c', '"', 'd']], [['e', '\n', 'f']]])
      = [[['a', ',', 'b'], ['c', '"', 'd']], [['e', '\n', 'f']]] :=
  csv_roundtrip [[['a', ',', 'b'], ['c', '"', 'd']], [['e', '\n', 'f']]]
    (by decide) (by decide) (by decide)

-- ════════════════════════════════════════════════════════════════════
-- C2: the fuzzy fallback
-- ════════════════════════════════════════════════════════════════════

/-- The per-term best distance actually computed by the source (minimum
over lowercase first, last, nickname, and every chunk of the JS whitespace
split of lowercase first — including an empty chunk when first_name is
empty, starts with whitespace, or ends with whitespace). -/
def termBest (c : Contact) (term : Str) : Nat :=
  listMin (fuzzyDistances c (lower term))

/-- Acceptance of one term. -/
def termOk (c : Contact) (term : Str) : Prop :=
  termBest c term ≤ fuzzyThreshold (lower term)

instance (c : Contact) (term : Str) : Decidable (termOk c term) := by
  rw [termOk]; infer_instance

/-- The sum of per-term best distances. -/
def totalBest (c : Contact) (terms : List Str) : Nat :=
  (terms.map (termBest c)).sum

/-- The claim's best distance as literally written: only the non-empty
whitespace-separated words of first_name contribute. -/
def claimBestDist (c : Contact) (term : Str) : Nat :=
  let t := lower term
  let first := lower c.first_name
  listMin ([levenshtein t first,
            levenshtein t (lower (coalesceStr c.last_name)),
            levenshtein t (lower (coalesceStr c.nickname))] ++
    ((jsSplitWs first).filter (fun w => w ≠ [])).map (levenshtein t))

/-- The contact of the C2 counterexample: a first name with a leading
space. -/
def fuzzyCx : Contact :=
  { id := 7, first_name := [' ', 'x', 'y', 'z'],
    last_name := some ['q', 'q', 'q', 'q'],
    nickname := some ['q', 'q', 'q', 'q'] }

unseal List.merge List.mergeSort in
/--
**C2 counterexample.**  With `first_name = " xyz"` the JS split of the
first name contains an *empty* chunk, whose distance to the term `"ab"` is
2 ≤ threshold 2, so the whole search (which falls through to the fuzzy
stage) returns the contact — yet the best distance over the claim's
candidate set (first, last, nickname and the non-empty *words* of
first_name) is 3 > 2, so by the claim the contact should have been
discarded.
-/
theorem fuzzy_words_counterexample :
    searchContactsSmart [fuzzyCx] ['a', 'b'] 20 = [fuzzyCx]
    ∧ claimBestDist fuzzyCx ['a', 'b'] > fuzzyThreshold (lower ['a', 'b']) := by
  constructor <;> decide

theorem fuzzyScoreGo_some (c : Contact) : ∀ (terms : List Str) (acc : Nat),
    (∀ t ∈ terms, termOk c t) →
    fuzzyScoreGo c terms acc = some (acc + totalBest c terms) := by
  intro terms
  induction terms with
  | nil => intro acc _; simp [fuzzyScoreGo, totalBest]
  | cons t ts ih =>
    intro acc h
    have ht : termOk c t := h t (by simp)
    rw [fuzzyScoreGo]
    rw [termOk, termBest] at ht
    rw [if_neg (by omega), ih (acc + listMin (fuzzyDistances c (lower t)))
      (fun u hu => h u (by simp [hu]))]
    simp only [totalBest, termBest, List.map_cons, List.sum_cons,
      Option.some.injEq]
    omega

theorem fuzzyScoreGo_none (c : Contact) : ∀ (terms : List Str) (acc : Nat),
    ¬(∀ t ∈ terms, termOk c t) →
    fuzzyScoreGo c terms acc = none := by
  intro terms
  induction terms with
  | nil => intro acc h; exact absurd (by simp) h
  | cons t ts ih =>
    intro acc h
    rw [fuzzyScoreGo]
    by_cases ht : termOk c t
    · rw [termOk, termBest] at ht
      rw [if_neg (by omega)]
      refine ih _ (fun hall => h ?_)
      intro u hu
      rcases List.mem_cons.mp hu with rfl | hu
      · rw [termOk, termBest]; omega
      · exact hall u hu
    · rw [termOk, termBest] at ht
      rw [if_pos (by omega)]

/-- The scored list is exactly the accepted contacts tagged with their
total score, in table (name) order. -/
theorem fuzzy_scored_eq (terms : List Str) : ∀ l : List Contact,
    l.filterMap (fun c => (fuzzyScore c terms).map (fun s => (c, s)))
      = (l.filter (fun c => decide (∀ t ∈ terms, termOk c t))).map
          (fun c => (c, totalBest c terms)) := by
  intro l
  induction l with
  | nil => rfl
  | cons c l' ih =>
    by_cases hc : ∀ t ∈ terms, termOk c t
    · have hsome : fuzzyScore c terms = some (totalBest c terms) := by
        rw [fuzzyScore, fuzzyScoreGo_some c terms 0 hc]
        simp
      simp only [List.filterMap_cons, List.filter_cons, hsome, ih]
      simp [hc]
      rw [if_pos hc]
      simp
    · have hnone : fuzzyScore c terms = none := by
        rw [fuzzyScore]
        exact fuzzyScoreGo_none c terms 0 hc
      simp only [List.filterMap_cons, List.filter_cons, hnone, ih]
      simp [hc]

theorem fuzzy_pair_trans :
    ∀ (a b c : Contact × Nat),
      (fun (p q : Contact × Nat) => decide (p.2 ≤ q.2)) a b = true →
      (fun (p q : Contact × Nat) => decide (p.2 ≤ q.2)) b c = true →
      (fun (p q : Contact × Nat) => decide (p.2 ≤ q.2)) a c = true := by
  intro a b c h1 h2
  simp only [decide_eq_true_eq] at h1 h2 ⊢
  omega

theorem fuzzy_pair_total :
    ∀ (a b : Contact × Nat),
      ((fun (p q : Contact × Nat) => decide (p.2 ≤ q.2)) a b
        || (fun (p q : Contact × Nat) => decide (p.2 ≤ q.2)) b a) = true := by
  intro a b
  simp only [Bool.or_eq_true, decide_eq_true_eq]
  omega

/-- Unfolding `searchContactsFuzzy` through `fuzzy_scored_eq`. -/
theorem searchContactsFuzzy_eq (db : List Contact) (terms : List Str)
    (limit : Nat) :
    searchContactsFuzzy db terms limit
      = ((((((sortedContacts db).filter
            (fun c => decide (∀ t ∈ terms, termOk c t))).map
              (fun c => (c, totalBest c terms))).mergeSort
                (fun p q => decide (p.2 ≤ q.2))).map Prod.fst).take limit) := by
  simp only [searchContactsFuzzy]
  rw [fuzzy_scored_eq terms (sortedContacts db)]

/--
**C2 (amended).**  In the fuzzy stage: a term's best distance is the
minimum Levenshtein distance of the lowercased term against lowercase
first_name, last_name, nickname and every chunk of the JavaScript
whitespace split of lowercase first_name (this split yields an empty chunk
— contributing distance `len(term)` — when first_name is empty, begins
with whitespace, or ends with whitespace).  A contact is returned only if
every term is within `max(2, ⌊len(term)/3⌋)`; contacts failing any term
are discarded unscored; the accepted contacts are returned ordered by the
sum of per-term best distances ascending, truncated to `limit`.  The stage
runs exactly when stages 1–3 produce zero results.
-/
theorem searchContactsFuzzy_spec (db : List Contact) (terms : List Str)
    (limit : Nat) :
    (∀ c t, termBest c t =
      listMin ([levenshtein (lower t) (lower c.first_name),
                levenshtein (lower t) (lower (coalesceStr c.last_name)),
                levenshtein (lower t) (lower (coalesceStr c.nickname))] ++
        (jsSplitWs (lower c.first_name)).map
          (fun w => levenshtein (lower t) w)))
    ∧ (∀ c ∈ searchContactsFuzzy db terms limit,
        c ∈ db ∧ ∀ t ∈ terms, termOk c t)
    ∧ (((sortedContacts db).filter
          (fun c => decide (∀ t ∈ terms, termOk c t))).length ≤ limit →
        ∀ c ∈ db, (∀ t ∈ terms, termOk c t) →
          c ∈ searchContactsFuzzy db terms limit)
    ∧ (searchContactsFuzzy db terms limit).Pairwise
        (fun c d => totalBest c terms ≤ totalBest d terms)
    ∧ (searchContactsFuzzy db terms limit).length ≤ limit
    ∧ (∀ q : Str, trimStr q ≠ [] → terms = queryTerms (trimStr q) →
        selectContacts db (stage1Match terms) limit = [] →
        commaStage db (trimStr q) limit = [] →
        selectContacts db (stage3Match (trimStr q)) limit = [] →
        searchContactsSmart db q limit = searchContactsFuzzy db terms limit) := by
  have hsortmem : ∀ q ∈ (((sortedContacts db).filter
        (fun c => decide (∀ t ∈ terms, termOk c t))).map
          (fun c => (c, totalBest c terms))).mergeSort
            (fun p q => decide (p.2 ≤ q.2)),
      q ∈ ((sortedContacts db).filter
        (fun c => decide (∀ t ∈ terms, termOk c t))).map
          (fun c => (c, totalBest c terms)) := fun q hq =>
    List.mem_mergeSort.mp hq
  refine ⟨fun c t => rfl, ?_, ?_, ?_, ?_, ?_⟩
  · intro c hc
    rw [searchContactsFuzzy_eq] at hc
    obtain ⟨q, hq, hqc⟩ := List.mem_map.mp (List.mem_of_mem_take hc)
    have hq' := hsortmem q hq
    obtain ⟨c', hc', hgc⟩ := List.mem_map.mp hq'
    have hcc : c' = c := by rw [← hgc] at hqc; exact hqc
    subst hcc
    obtain ⟨hdbm, hpp⟩ := List.mem_filter.mp hc'
    exact ⟨List.mem_mergeSort.mp hdbm, by simpa using hpp⟩
  · intro hlen c hcdb hacc
    rw [searchContactsFuzzy_eq]
    have hmem : (c, totalBest c terms) ∈ ((sortedContacts db).filter
        (fun c => decide (∀ t ∈ terms, termOk c t))).map
          (fun c => (c, totalBest c terms)) :=
      List.mem_map_of_mem _ (List.mem_filter.mpr
        ⟨List.mem_mergeSort.mpr hcdb, by simpa using hacc⟩)
    have hms := @List.mem_mergeSort (Contact × Nat)
      (fun p q => decide (p.2 ≤ q.2)) _ _ |>.mpr hmem
    rw [List.take_of_length_le
      (by rw [List.length_map, List.length_mergeSort, List.length_map]; exact hlen)]
    exact List.mem_map.mpr ⟨(c, totalBest c terms), hms, rfl⟩
  · rw [searchContactsFuzzy_eq]
    have hsorted := @List.sorted_mergeSort (Contact × Nat)
      (fun p q => decide (p.2 ≤ q.2))
      fuzzy_pair_trans fuzzy_pair_total
      (((sortedContacts db).filter
        (fun c => decide (∀ t ∈ terms, termOk c t))).map
          (fun c => (c, totalBest c terms)))
    rw [← List.map_take, List.pairwise_map]
    have htake := hsorted.sublist (List.take_sublist limit _)
    refine htake.imp_of_mem ?_
    intro a b ha hb hab
    have ha' := hsortmem a (List.mem_of_mem_take ha)
    have hb' := hsortmem b (List.mem_of_mem_take hb)
    obtain ⟨ca, _, hca⟩ := List.mem_map.mp ha'
    obtain ⟨cb, _, hcb⟩ := List.mem_map.mp hb'
    simp only [decide_eq_true_eq] at hab
    rw [← hca, ← hcb] at hab ⊢
    exact hab
  · rw [searchContactsFuzzy_eq, List.length_take]
    exact Nat.min_le_left _ _
  · intro q htrim hterms h1 h2 h3
    rw [searchContactsSmart]
    simp only [htrim, if_neg, reduceIte, ← hterms]
    have h34 : searchStage34 db (trimStr q) terms limit
        = searchContactsFuzzy db terms limit := by
      rw [searchStage34, h3]
      simp
    by_cases hlen : terms.length > 1
    · simp only [hlen, if_true, reduceIte, h1, h2]
      simpa using h34
    · simp only [hlen, if_false, reduceIte]
      exact h34

unseal List.merge List.mergeSort in
/-- C2 witness: a one-contact table where the single term is accepted. -/
theorem searchContactsFuzzy_spec_witness :
    (((sortedContacts [mkC 0]).filter
        (fun c => decide (∀ t ∈ [['a']], termOk c t))).length ≤ 20)
    ∧ mkC 0 ∈ searchContactsFuzzy [mkC 0] [['a']] 20 :=
  ⟨by decide,
    (searchContactsFuzzy_spec [mkC 0] [['a']] 20).2.2.1 (by decide)
      (mkC 0) (by decide) (by decide)⟩

-- ════════════════════════════════════════════════════════════════════
-- Word-splitting machinery: JS split(/\s+/), trim, and split(",") (claims C1, C3)
theorem jsSplitWs_nil : jsSplitWs [] = [[]] := rfl

theorem jsSplitWs_one_ws {c : Char} (h : isWs c) : jsSplitWs [c] = [[], []] := by
  simp [jsSplitWs, h]

theorem jsSplitWs_ws_ws {c d : Char} (hc : isWs c) (hd : isWs d) (rest : Str) :
    jsSplitWs (c :: d :: rest) = [] :: (jsSplitWs (d :: rest)).tail := by
  simp [jsSplitWs, hc, hd]

theorem jsSplitWs_ws_nonws {c d : Char} (hc : isWs c) (hd : ¬isWs d) (rest : Str) :
    jsSplitWs (c :: d :: rest) = [] :: jsSplitWs (d :: rest) := by
  conv_lhs => rw [jsSplitWs.eq_def]
  simp [hc, hd]

theorem jsSplitWs_nonws {c : Char} (hc : ¬isWs c) (rest : Str) :
    jsSplitWs (c :: rest) =
      match jsSplitWs rest with
      | r :: rs => (c :: r) :: rs
      | [] => [[c]] := by
  conv_lhs => rw [jsSplitWs.eq_def]
  simp [hc]



theorem jsSplitWs_ne_nil (s : Str) : jsSplitWs s ≠ [] := by
  cases s with
  | nil => simp [jsSplitWs_nil]
  | cons c rest =>
    by_cases hc : isWs c
    · cases rest with
      | nil => simp [jsSplitWs_one_ws hc]
      | cons d rest' =>
        by_cases hd : isWs d
        · simp [jsSplitWs_ws_ws hc hd]
        · simp [jsSplitWs_ws_nonws hc hd]
    · rw [jsSplitWs_nonws hc]
      rcases h : jsSplitWs rest with _ | ⟨r, rs⟩
      · exact absurd h (jsSplitWs_ne_nil rest)
      · simp

theorem jsSplitWs_ws_head {w : Char} (hw : isWs w) (s : Str) :
    ∃ t, jsSplitWs (w :: s) = [] :: t := by
  cases s with
  | nil => exact ⟨[[]], jsSplitWs_one_ws hw⟩
  | cons d rest' =>
    by_cases hd : isWs d
    · exact ⟨(jsSplitWs (d :: rest')).tail, jsSplitWs_ws_ws hw hd rest'⟩
    · exact ⟨jsSplitWs (d :: rest'), jsSplitWs_ws_nonws hw hd rest'⟩

theorem queryTerms_nil : queryTerms [] = [] := rfl

theorem queryTerms_cons_ws {w : Char} (hw : isWs w) (s : Str) :
    queryTerms (w :: s) = queryTerms s := by
  cases s with
  | nil => simp [queryTerms, jsSplitWs_one_ws hw, jsSplitWs_nil]
  | cons d rest =>
    by_cases hd : isWs d
    · obtain ⟨t, ht⟩ := jsSplitWs_ws_head hd rest
      rw [queryTerms, queryTerms, jsSplitWs_ws_ws hw hd, ht]
      simp
    · rw [queryTerms, queryTerms, jsSplitWs_ws_nonws hw hd]
      simp

theorem jsSplitWs_head_take (s : Str) :
    ∃ rs, jsSplitWs s = (s.takeWhile (fun c => !isWs c)) :: rs ∧
      rs.filter (fun t => t.length > 0) =
        queryTerms (s.dropWhile (fun c => !isWs c)) := by
  induction s with
  | nil => exact ⟨[], rfl, rfl⟩
  | cons c rest ih =>
    by_cases hc : isWs c
    · obtain ⟨t, ht⟩ := jsSplitWs_ws_head hc rest
      refine ⟨t, ?_, ?_⟩
      · rw [ht, List.takeWhile_cons]
        simp [hc]
      · rw [List.dropWhile_cons]
        simp only [hc, Bool.not_true, Bool.false_eq_true, if_false, reduceIte]
        rw [queryTerms, ht]
        simp
    · obtain ⟨rs, hrs, hfil⟩ := ih
      refine ⟨rs, ?_, ?_⟩
      · rw [jsSplitWs_nonws hc, hrs, List.takeWhile_cons]
        simp [hc]
      · rw [List.dropWhile_cons]
        simp only [hc, Bool.not_false, Bool.false_eq_true, if_true, reduceIte]
        exact hfil

theorem queryTerms_cons_nonws {x : Char} (hx : ¬isWs x) (s : Str) :
    queryTerms (x :: s) =
      (x :: s.takeWhile (fun c => !isWs c)) ::
        queryTerms (s.dropWhile (fun c => !isWs c)) := by
  obtain ⟨rs, hrs, hfil⟩ := jsSplitWs_head_take s
  rw [queryTerms, jsSplitWs_nonws hx, hrs]
  simp [hfil]

theorem queryTerms_all_ws : ∀ {s : Str}, (∀ c ∈ s, isWs c) → queryTerms s = [] := by
  intro s
  induction s with
  | nil => intro _; rfl
  | cons c rest ih =>
    intro h
    rw [queryTerms_cons_ws (h c (List.mem_cons_self c rest))]
    exact ih (fun d hd => h d (List.mem_cons_of_mem c hd))



theorem mem_takeWhile_pass (p : Char → Bool) :
    ∀ {l : Str} {a : Char}, a ∈ l.takeWhile p → p a = true := by
  intro l
  induction l with
  | nil => intro a h; simp [List.takeWhile] at h
  | cons x rest ih =>
    intro a h
    rw [List.takeWhile_cons] at h
    by_cases hx : p x = true
    · rw [if_pos hx] at h
      rcases List.mem_cons.mp h with rfl | h
      · exact hx
      · exact ih h
    · rw [if_neg hx] at h
      exact absurd h (List.not_mem_nil a)

theorem takeWhile_stop (p : Char → Bool) :
    ∀ {u : Str} {w : Char} (z : Str), (∀ ch ∈ u, p ch = true) → p w = false →
      (u ++ w :: z).takeWhile p = u ∧ (u ++ w :: z).dropWhile p = w :: z := by
  intro u
  induction u with
  | nil =>
    intro w z _ hw
    constructor
    · rw [List.nil_append, List.takeWhile_cons, hw]
      simp
    · rw [List.nil_append, List.dropWhile_cons, hw]
      simp
  | cons a u' ih =>
    intro w z hall hw
    have ha : p a = true := hall a (List.mem_cons_self a u')
    have hrest : ∀ ch ∈ u', p ch = true :=
      fun ch hch => hall ch (List.mem_cons_of_mem a hch)
    obtain ⟨h1, h2⟩ := ih z hrest hw
    constructor
    · rw [List.cons_append, List.takeWhile_cons, ha]
      simp [h1]
    · rw [List.cons_append, List.dropWhile_cons, ha]
      simp [h2]

theorem dropWhile_head_false (p : Char → Bool) :
    ∀ {l : Str} {c : Char} {l' : Str}, l.dropWhile p = c :: l' → p c = false := by
  intro l
  induction l with
  | nil => intro c l' h; simp [List.dropWhile] at h
  | cons a rest ih =>
    intro c l' h
    rw [List.dropWhile_cons] at h
    by_cases ha : p a = true
    · rw [if_pos ha] at h
      exact ih h
    · rw [if_neg ha] at h
      injection h with h1 _
      rw [← h1]
      exact Bool.not_eq_true _ |>.mp ha

theorem queryTerms_append_ws_aux {c : Char} (hc : isWs c) :
    ∀ (n : Nat) (a b : Str), a.length ≤ n →
      queryTerms (a ++ c :: b) = queryTerms a ++ queryTerms b := by
  intro n
  induction n with
  | zero =>
    intro a b ha
    have : a = [] := List.eq_nil_of_length_eq_zero (Nat.le_zero.mp ha)
    subst this
    rw [List.nil_append, queryTerms_cons_ws hc, queryTerms_nil, List.nil_append]
  | succ n ih =>
    intro a b ha
    cases a with
    | nil =>
      rw [List.nil_append, queryTerms_cons_ws hc, queryTerms_nil, List.nil_append]
    | cons x a₀ =>
      by_cases hx : isWs x
      · rw [List.cons_append, queryTerms_cons_ws hx, queryTerms_cons_ws hx]
        exact ih a₀ b (Nat.le_of_succ_le_succ ha)
      · rcases hd : a₀.dropWhile (fun ch => !isWs ch) with _ | ⟨w, d₀⟩
        · -- a₀ is entirely non-whitespace
          have htw : a₀.takeWhile (fun ch => !isWs ch) = a₀ := by
            have := List.takeWhile_append_dropWhile (fun ch => !isWs ch) a₀
            rw [hd, List.append_nil] at this
            exact this
          have hall : ∀ ch ∈ a₀, (fun ch => !isWs ch) ch = true := by
            intro ch hch
            rw [← htw] at hch
            exact mem_takeWhile_pass (fun ch => !isWs ch) hch
          have hcw : (fun ch => !isWs ch) c = false := by simp [hc]
          obtain ⟨ht1, ht2⟩ := takeWhile_stop (fun ch => !isWs ch) b hall hcw
          rw [List.cons_append, queryTerms_cons_nonws hx, ht1, ht2,
            queryTerms_cons_ws hc, queryTerms_cons_nonws hx, htw, hd,
            queryTerms_nil]
          rfl
        · -- a₀ contains whitespace; w is its first whitespace char
          have hw : isWs w := by
            have := dropWhile_head_false (fun ch => !isWs ch) hd
            simpa using this
          have hdecomp : a₀ = a₀.takeWhile (fun ch => !isWs ch) ++ w :: d₀ := by
            conv_lhs => rw [← List.takeWhile_append_dropWhile
              (fun ch => !isWs ch) a₀]
            rw [hd]
          have hall : ∀ ch ∈ a₀.takeWhile (fun ch => !isWs ch),
              (fun ch => !isWs ch) ch = true :=
            fun ch hch => mem_takeWhile_pass (fun ch => !isWs ch) hch
          have hww : (fun ch => !isWs ch) w = false := by simp [hw]
          obtain ⟨ht1, ht2⟩ := takeWhile_stop (fun ch => !isWs ch)
            (d₀ ++ c :: b) hall hww
          have hshape : a₀ ++ c :: b =
              a₀.takeWhile (fun ch => !isWs ch) ++ w :: (d₀ ++ c :: b) := by
            conv_lhs => rw [hdecomp]
            simp
          have hlen : d₀.length ≤ n := by
            have h1 := congrArg List.length hdecomp
            rw [List.length_append, List.length_cons] at h1
            have h2 : a₀.length ≤ n := Nat.le_of_succ_le_succ ha
            omega
          rw [List.cons_append, queryTerms_cons_nonws hx, hshape, ht1, ht2,
            queryTerms_cons_ws hw, ih d₀ b hlen,
            queryTerms_cons_nonws hx, hd, queryTerms_cons_ws hw]
          simp

theorem queryTerms_append_ws {c : Char} (hc : isWs c) (a b : Str) :
    queryTerms (a ++ c :: b) = queryTerms a ++ queryTerms b :=
  queryTerms_append_ws_aux hc a.length a b (Nat.le_refl _)



theorem jsSplitWs_head_sub : ∀ (s : Str) (r : Str) (rs : List Str),
    jsSplitWs s = r :: rs → ∃ w, s = r ++ w := by
  intro s
  induction s with
  | nil =>
    intro r rs h
    rw [jsSplitWs_nil] at h
    injection h with h1 _
    exact ⟨[], by simp [← h1]⟩
  | cons c rest ih =>
    intro r rs h
    by_cases hc : isWs c
    · obtain ⟨t, ht⟩ := jsSplitWs_ws_head hc rest
      rw [ht] at h
      injection h with h1 _
      exact ⟨c :: rest, by simp [← h1]⟩
    · rw [jsSplitWs_nonws hc] at h
      rcases hrest : jsSplitWs rest with _ | ⟨r₀, rs₀⟩
      · exact absurd hrest (jsSplitWs_ne_nil rest)
      · rw [hrest] at h
        injection h with h1 _
        obtain ⟨w, hw⟩ := ih r₀ rs₀ hrest
        exact ⟨w, by rw [← h1, List.cons_append, ← hw]⟩

theorem jsSplitWs_chunk_sub : ∀ (s : Str) (t : Str), t ∈ jsSplitWs s →
    ∃ u v, s = u ++ t ++ v := by
  intro s
  induction s with
  | nil =>
    intro t ht
    rw [jsSplitWs_nil, List.mem_singleton] at ht
    exact ⟨[], [], by simp [ht]⟩
  | cons c rest ih =>
    intro t ht
    by_cases hc : isWs c
    · cases rest with
      | nil =>
        rw [jsSplitWs_one_ws hc] at ht
        simp only [List.mem_cons, List.not_mem_nil, or_false] at ht
        rcases ht with rfl | rfl
        · exact ⟨[], [c], by simp⟩
        · exact ⟨[], [c], by simp⟩
      | cons d rest' =>
        by_cases hd : isWs d
        · rw [jsSplitWs_ws_ws hc hd] at ht
          rcases List.mem_cons.mp ht with rfl | ht
          · exact ⟨[], c :: d :: rest', by simp⟩
          · have ht' : t ∈ jsSplitWs (d :: rest') :=
              List.mem_of_mem_tail ht
            obtain ⟨u, v, huv⟩ := ih t ht'
            exact ⟨c :: u, v, by simp [huv]⟩
        · rw [jsSplitWs_ws_nonws hc hd] at ht
          rcases List.mem_cons.mp ht with rfl | ht
          · exact ⟨[], c :: d :: rest', by simp⟩
          · obtain ⟨u, v, huv⟩ := ih t ht
            exact ⟨c :: u, v, by simp [huv]⟩
    · rw [jsSplitWs_nonws hc] at ht
      rcases hrest : jsSplitWs rest with _ | ⟨r₀, rs₀⟩
      · exact absurd hrest (jsSplitWs_ne_nil rest)
      · rw [hrest] at ht
        rcases List.mem_cons.mp ht with rfl | ht
        · obtain ⟨_ | ⟨r, r'⟩, hw⟩ := by
            exact jsSplitWs_head_sub rest r₀ rs₀ hrest
          · exact ⟨[], [], by simp [hw]⟩
          · exact ⟨[], r :: r', by simp [hw]⟩
        · obtain ⟨u, v, huv⟩ := ih t (by
            rw [hrest]; exact List.mem_cons_of_mem r₀ ht)
          exact ⟨c :: u, v, by simp [huv]⟩

theorem queryTerms_chunk_sub (s : Str) (t : Str) (ht : t ∈ queryTerms s) :
    ∃ u v, s = u ++ t ++ v := by
  rw [queryTerms] at ht
  exact jsSplitWs_chunk_sub s t (List.mem_of_mem_filter ht)

theorem queryTerms_append_allws {w : Str} (hw : ∀ c ∈ w, isWs c) (a : Str) :
    queryTerms (a ++ w) = queryTerms a := by
  cases w with
  | nil => rw [List.append_nil]
  | cons c w' =>
    rw [queryTerms_append_ws (hw c (List.mem_cons_self c w')) a w',
      queryTerms_all_ws (fun d hd => hw d (List.mem_cons_of_mem c hd)),
      List.append_nil]

theorem queryTerms_ne_nil : ∀ {s : Str} {c : Char}, c ∈ s → ¬isWs c →
    queryTerms s ≠ [] := by
  intro s
  induction s with
  | nil => intro c hc _; exact absurd hc (List.not_mem_nil c)
  | cons x rest ih =>
    intro c hc hnws
    by_cases hx : isWs x
    · rw [queryTerms_cons_ws hx]
      rcases List.mem_cons.mp hc with rfl | hc'
      · exact absurd hx hnws
      · exact ih hc' hnws
    · rw [queryTerms_cons_nonws hx]
      simp

theorem queryTerms_dropWhile_ws (s : Str) :
    queryTerms (s.dropWhile isWs) = queryTerms s := by
  induction s with
  | nil => rfl
  | cons c rest ih =>
    rw [List.dropWhile_cons]
    by_cases hc : isWs c = true
    · rw [if_pos hc, queryTerms_cons_ws hc] at *
      exact ih
    · rw [if_neg hc]

def trimEnd (s : Str) : Str := (s.reverse.dropWhile isWs).reverse

theorem trimStr_eq_trimEnd (s : Str) :
    trimStr s = trimEnd (s.dropWhile isWs) := rfl

theorem trimEnd_decomp (s : Str) :
    ∃ w, s = trimEnd s ++ w ∧ ∀ c ∈ w, isWs c := by
  refine ⟨(s.reverse.takeWhile isWs).reverse, ?_, ?_⟩
  · conv_lhs => rw [← List.reverse_reverse s,
      ← List.takeWhile_append_dropWhile isWs s.reverse]
    rw [List.reverse_append, trimEnd]
  · intro c hc
    rw [List.mem_reverse] at hc
    exact mem_takeWhile_pass isWs hc

theorem queryTerms_trimEnd (s : Str) : queryTerms (trimEnd s) = queryTerms s := by
  obtain ⟨w, hdec, hws⟩ := trimEnd_decomp s
  conv_rhs => rw [hdec]
  rw [queryTerms_append_allws hws]

theorem queryTerms_trim (s : Str) : queryTerms (trimStr s) = queryTerms s := by
  rw [trimStr_eq_trimEnd, queryTerms_trimEnd, queryTerms_dropWhile_ws]

theorem trim_sub (s : Str) :
    ∃ u v, s = u ++ trimStr s ++ v ∧ (∀ c ∈ u, isWs c) ∧ ∀ c ∈ v, isWs c := by
  obtain ⟨v, hdec, hws⟩ := trimEnd_decomp (s.dropWhile isWs)
  refine ⟨s.takeWhile isWs, v, ?_, ?_, hws⟩
  · conv_lhs => rw [← List.takeWhile_append_dropWhile isWs s, hdec]
    rw [trimStr_eq_trimEnd, List.append_assoc]
  · intro c hc
    exact mem_takeWhile_pass isWs hc

theorem trimStr_ne_nil {s : Str} {c : Char} (hc : c ∈ s) (hnws : ¬isWs c) :
    trimStr s ≠ [] := by
  obtain ⟨u, v, hdec, hu, hv⟩ := trim_sub s
  intro hnil
  rw [hdec] at hc
  rcases List.mem_append.mp hc with hc' | hv'
  · rcases List.mem_append.mp hc' with hu' | ht
    · exact hnws (hu c hu')
    · rw [hnil] at ht
      exact absurd ht (List.not_mem_nil c)
  · exact hnws (hv c hv')

theorem mem_trimStr {s : Str} {c : Char} (hc : c ∈ trimStr s) : c ∈ s := by
  obtain ⟨u, v, hdec, _, _⟩ := trim_sub s
  rw [hdec]
  exact List.mem_append.mpr (Or.inl (List.mem_append.mpr (Or.inr hc)))



theorem dropWhile_ne_nil_of_mem {p : Char → Bool} {l : Str} {c : Char}
    (hc : c ∈ l) (hp : p c = false) : l.dropWhile p ≠ [] := by
  intro h
  have := List.dropWhile_eq_nil_iff.mp h c hc
  rw [hp] at this
  exact Bool.false_ne_true this

theorem dropWhile_append_left {p : Char → Bool} {a : Str} (b : Str)
    (ha : a.dropWhile p ≠ []) :
    (a ++ b).dropWhile p = a.dropWhile p ++ b := by
  rw [List.dropWhile_append]
  rcases h : a.dropWhile p with _ | ⟨x, xs⟩
  · exact absurd h ha
  · simp

theorem dropWhile_all_pass {p : Char → Bool} {a : Str}
    (ha : ∀ c ∈ a, p c = true) (b : Str) :
    (a ++ b).dropWhile p = b.dropWhile p := by
  rw [List.dropWhile_append, List.dropWhile_eq_nil_iff.mpr ha]
  simp

theorem mem_of_mem_dropWhile {p : Char → Bool} {l : Str} {c : Char}
    (hc : c ∈ l.dropWhile p) : c ∈ l :=
  List.Sublist.mem hc (List.dropWhile_sublist p)

theorem trimEnd_append_right {a b : Str} {c : Char} (hc : c ∈ b)
    (hnws : ¬isWs c) : trimEnd (a ++ b) = a ++ trimEnd b := by
  rw [trimEnd, List.reverse_append,
    dropWhile_append_left a.reverse
      (dropWhile_ne_nil_of_mem (List.mem_reverse.mpr hc)
        (Bool.not_eq_true _ |>.mp hnws)),
    List.reverse_append, List.reverse_reverse, trimEnd]

theorem trimEnd_append_ws {w : Str} (hw : ∀ c ∈ w, isWs c) (a : Str) :
    trimEnd (a ++ w) = trimEnd a := by
  rw [trimEnd, List.reverse_append,
    dropWhile_all_pass (fun c hc => hw c (List.mem_reverse.mp hc)) a.reverse,
    trimEnd]

theorem trimStr_append_ws {w : Str} (hw : ∀ c ∈ w, isWs c) (a : Str) :
    trimStr (a ++ w) = trimStr a := by
  rw [trimStr_eq_trimEnd, trimStr_eq_trimEnd]
  rcases h : a.dropWhile isWs with _ | ⟨x, xs⟩
  · rw [List.dropWhile_append, h]
    have : w.dropWhile isWs = [] :=
      List.dropWhile_eq_nil_iff.mpr (fun c hc => hw c hc)
    simp [this]
  · rw [dropWhile_append_left w (by rw [h]; simp), h,
      trimEnd_append_ws hw]

theorem trimStr_trimEnd (s : Str) : trimStr (trimEnd s) = trimStr s := by
  obtain ⟨w, hdec, hws⟩ := trimEnd_decomp s
  conv_rhs => rw [hdec]
  rw [trimStr_append_ws hws]

theorem trimStr_cons_ws {w : Char} (hw : isWs w) (s : Str) :
    trimStr (w :: s) = trimStr s := by
  rw [trimStr_eq_trimEnd, trimStr_eq_trimEnd, List.dropWhile_cons, if_pos hw]

theorem trimStr_dropWhile (s : Str) : trimStr (s.dropWhile isWs) = trimStr s := by
  rw [trimStr_eq_trimEnd, trimStr_eq_trimEnd, List.dropWhile_idempotent]

theorem trimStr_idem (s : Str) : trimStr (trimStr s) = trimStr s := by
  have h1 : trimStr (trimStr s) = trimStr (trimEnd (s.dropWhile isWs)) := rfl
  rw [h1, trimStr_trimEnd, trimStr_dropWhile]

theorem mem_of_mem_trimEnd {s : Str} {c : Char} (hc : c ∈ trimEnd s) : c ∈ s := by
  obtain ⟨w, hdec, _⟩ := trimEnd_decomp s
  rw [hdec]
  exact List.mem_append.mpr (Or.inl hc)

-- splitOn step lemmas

theorem splitOn_nil (sep : Char) : splitOn sep [] = [[]] := rfl

theorem splitOn_cons_sep {sep c : Char} (h : c = sep) (rest : Str) :
    splitOn sep (c :: rest) = [] :: splitOn sep rest := by
  conv_lhs => rw [splitOn.eq_def]
  simp [h]

theorem splitOn_cons_ne {sep c : Char} (h : ¬c = sep) (rest : Str) :
    splitOn sep (c :: rest) =
      match splitOn sep rest with
      | r :: rs => (c :: r) :: rs
      | [] => [[c]] := by
  conv_lhs => rw [splitOn.eq_def]
  simp [h]

theorem splitOn_ne_nil (sep : Char) (s : Str) : splitOn sep s ≠ [] := by
  cases s with
  | nil => simp [splitOn_nil]
  | cons c rest =>
    by_cases h : c = sep
    · simp [splitOn_cons_sep h]
    · rw [splitOn_cons_ne h]
      rcases hr : splitOn sep rest with _ | ⟨r, rs⟩
      · exact absurd hr (splitOn_ne_nil sep rest)
      · simp

theorem splitOn_no_sep {sep : Char} : ∀ {a : Str}, sep ∉ a →
    splitOn sep a = [a] := by
  intro a
  induction a with
  | nil => intro _; rfl
  | cons c rest ih =>
    intro h
    have hc : ¬c = sep := fun hcs => h (hcs ▸ List.mem_cons_self c rest)
    have hrest : sep ∉ rest := fun hs => h (List.mem_cons_of_mem c hs)
    rw [splitOn_cons_ne hc, ih hrest]

theorem splitOn_append_sep {sep : Char} : ∀ {a : Str} (b : Str), sep ∉ a →
    splitOn sep (a ++ sep :: b) = a :: splitOn sep b := by
  intro a
  induction a with
  | nil =>
    intro b _
    rw [List.nil_append, splitOn_cons_sep rfl]
  | cons c rest ih =>
    intro b h
    have hc : ¬c = sep := fun hcs => h (hcs ▸ List.mem_cons_self c rest)
    have hrest : sep ∉ rest := fun hs => h (List.mem_cons_of_mem c hs)
    rw [List.cons_append, splitOn_cons_ne hc, ih b hrest]

-- ════════════════════════════════════════════════════════════════════
-- C3: the comma fallback (stage 2 of `searchContactsSmart`)
-- ════════════════════════════════════════════════════════════════════

/-- Claim-side reading of C3: the query is split at the FIRST comma into
`(lastPart, firstPart)` (both trimmed). -/
def firstCommaSplit (s : Str) : Str × Str :=
  (trimStr (s.takeWhile (fun c => c ≠ ',')),
   trimStr ((s.dropWhile (fun c => c ≠ ',')).tail))

def C3c : Contact :=
  { id := 1
    first_name := ['z','z','z']
    last_name := some ['S','m','i','t','h',' ','x','!'] }

def db3 : List Contact := [C3c]

def q3 : Str := ['S','m','i','t','h',' ','x',',']

theorem charOfNat_toNat {n : Nat} (h1 : 97 ≤ n) (h2 : n ≤ 122) :
    (Char.ofNat n).toNat = n := by
  have hv : n.isValidChar := Or.inl (by omega)
  rw [Char.ofNat, dif_pos hv, Char.ofNatAux, Char.toNat]
  simp [UInt32.toNat, BitVec.toNat_ofNatLt]

theorem lcChar_wildcard {d : Char} (h : d ≠ '%' ∧ d ≠ '_') :
    lcChar d ≠ '%' ∧ lcChar d ≠ '_' := by
  rw [lcChar]
  split
  case isTrue hr =>
    have ht : (Char.ofNat (d.toNat + 32)).toNat = d.toNat + 32 :=
      charOfNat_toNat (by omega) (by omega)
    constructor
    · intro he
      rw [he] at ht
      have : ('%').toNat = 37 := rfl
      omega
    · intro he
      rw [he] at ht
      have : ('_').toNat = 95 := rfl
      omega
  case isFalse => exact h

theorem lower_wildcard_free {s : Str} (h : ∀ c ∈ s, c ≠ '%' ∧ c ≠ '_') :
    ∀ c ∈ lower s, c ≠ '%' ∧ c ≠ '_' := by
  intro c hc
  rw [lower, List.mem_map] at hc
  obtain ⟨d, hd, rfl⟩ := hc
  exact lcChar_wildcard (h d hd)

theorem lcChar_idem (c : Char) : lcChar (lcChar c) = lcChar c := by
  by_cases h : 65 ≤ c.toNat ∧ c.toNat ≤ 90
  · have hin : lcChar c = Char.ofNat (c.toNat + 32) := by
      rw [lcChar, if_pos h]
    have ht : (Char.ofNat (c.toNat + 32)).toNat = c.toNat + 32 :=
      charOfNat_toNat (by omega) (by omega)
    rw [hin, lcChar, if_neg]
    rw [ht]
    omega
  · have hin : lcChar c = c := by rw [lcChar, if_neg h]
    rw [hin, hin]

theorem lower_idem (s : Str) : lower (lower s) = lower s := by
  rw [lower, lower, List.map_map]
  exact List.map_congr_left (fun c _ => lcChar_idem c)

/-- stage 2 matching, for wildcard-free parts, is exactly case-insensitive
substring containment on `last_name` (NULL read as `''`) and `first_name`. -/
theorem stage2Match_iff {a b : Str}
    (hwa : ∀ c ∈ a, c ≠ '%' ∧ c ≠ '_') (hwb : ∀ c ∈ b, c ≠ '%' ∧ c ≠ '_')
    (c : Contact) :
    stage2Match a b c = true ↔
      (hasSub (lower (coalesceStr c.last_name)) (lower a) = true ∧
       hasSub (lower c.first_name) (lower b) = true) := by
  rw [stage2Match, Bool.and_eq_true,
    likeM_wrap_iff (lower_wildcard_free hwa),
    likeM_wrap_iff (lower_wildcard_free hwb),
    lower_idem, lower_idem, lower_idem, lower_idem]

theorem intercalate_singleton (x : Str) :
    List.intercalate [' '] [x] = x := by
  simp [List.intercalate]

/-- `split(",")` on a query with exactly one comma, both sides comma-free:
the derived parts are the trims of the two sides. -/
theorem commaParts_single {a b : Str} (ha : ',' ∉ a) (hb : ',' ∉ b) :
    commaParts (a ++ ',' :: b) = (trimStr a, trimStr b) := by
  rw [commaParts, splitOn_append_sep b ha, splitOn_no_sep hb]
  simp only [List.map_cons, List.map_nil]
  rw [intercalate_singleton, trimStr_idem]

theorem mem_selectContacts_of_le {db : List Contact} {p : Contact → Bool}
    {limit : Nat}
    (h : ((sortedContacts db).filter p).length ≤ limit) (c : Contact) :
    c ∈ selectContacts db p limit ↔ c ∈ db ∧ p c = true := by
  rw [selectContacts, List.take_of_length_le h, List.mem_filter,
    sortedContacts, List.mem_mergeSort]

unseal List.merge List.mergeSort in
/-- C3 counterexample (query `"Smith x,"`, database `[{first_name: "zzz",
last_name: "Smith x!"}]`): stage 1 yields zero results, the raw query
contains a comma, and the contact substring-matches both parts of the
claim's first-comma split (`lastPart = "Smith x"`, `firstPart = ""`), yet
the search returns nothing: the source requires BOTH parts of its own
every-comma split to be truthy, and the empty `firstPart` aborts the
comma fallback. -/
theorem comma_fallback_counterexample :
    (queryTerms (trimStr q3)).length > 1 ∧
    selectContacts db3 (stage1Match (queryTerms (trimStr q3))) 20 = [] ∧
    (trimStr q3).contains ',' = true ∧
    (hasSub (lower (coalesceStr C3c.last_name))
        (lower (firstCommaSplit (trimStr q3)).1) = true ∧
     hasSub (lower C3c.first_name)
        (lower (firstCommaSplit (trimStr q3)).2) = true) ∧
    C3c ∈ db3 ∧
    searchContacts db3 q3 20 = [] := by
  decide

/-- C3 as amended: on a query whose trim is `a ++ "," ++ b` with both sides
comma- and wildcard-free, `split(",")` yields the first-comma parts
`(trim a, trim b)`; the comma stage runs exactly when BOTH parts are
non-empty (JS truthiness), in which case it is the stage-2 `SELECT`, whose
predicate is case-insensitive substring containment of the parts in
`last_name` (NULL read as `''`) and `first_name`; when the whole filtered
result fits the limit, membership is exactly `c ∈ db` plus that predicate;
and when the trimmed query splits into more than one whitespace term,
stage 1 is empty and the comma stage is non-empty, `searchContactsSmart`
returns exactly the comma stage's rows. -/
theorem commaFallback_spec (db : List Contact) (limit : Nat) (a b : Str)
    (ha : ',' ∉ a) (hb : ',' ∉ b)
    (hwa : ∀ c ∈ a, c ≠ '%' ∧ c ≠ '_') (hwb : ∀ c ∈ b, c ≠ '%' ∧ c ≠ '_') :
    commaParts (a ++ ',' :: b) = (trimStr a, trimStr b)
    ∧ commaStage db (a ++ ',' :: b) limit =
        (if trimStr a ≠ [] ∧ trimStr b ≠ [] then
          selectContacts db (stage2Match (trimStr a) (trimStr b)) limit
        else [])
    ∧ (∀ c : Contact, stage2Match (trimStr a) (trimStr b) c = true ↔
        (hasSub (lower (coalesceStr c.last_name))
            (lower (trimStr a)) = true ∧
         hasSub (lower c.first_name) (lower (trimStr b)) = true))
    ∧ (((sortedContacts db).filter
          (stage2Match (trimStr a) (trimStr b))).length ≤ limit →
        ∀ c : Contact,
          c ∈ selectContacts db (stage2Match (trimStr a) (trimStr b)) limit ↔
            c ∈ db ∧ stage2Match (trimStr a) (trimStr b) c = true)
    ∧ (∀ q : Str, trimStr q = a ++ ',' :: b →
        (queryTerms (a ++ ',' :: b)).length > 1 →
        selectContacts db (stage1Match (queryTerms (a ++ ',' :: b)))
          limit = [] →
        commaStage db (a ++ ',' :: b) limit ≠ [] →
        searchContactsSmart db q limit =
          commaStage db (a ++ ',' :: b) limit) := by
  have hparts : commaParts (a ++ ',' :: b) = (trimStr a, trimStr b) :=
    commaParts_single ha hb
  have hwa' : ∀ c ∈ trimStr a, c ≠ '%' ∧ c ≠ '_' :=
    fun c hc => hwa c (mem_trimStr hc)
  have hwb' : ∀ c ∈ trimStr b, c ≠ '%' ∧ c ≠ '_' :=
    fun c hc => hwb c (mem_trimStr hc)
  refine ⟨hparts, ?_, fun c => stage2Match_iff hwa' hwb' c,
    fun h c => mem_selectContacts_of_le h c, ?_⟩
  · rw [commaStage, hparts]
    have hcomma : (a ++ ',' :: b).contains ',' = true := by
      rw [List.contains_eq_any_beq]
      simp [List.any_eq_true]
    rw [if_pos hcomma]
  · intro q htr hterms hstage1 hcomma
    rw [searchContactsSmart, htr]
    have hne : a ++ ',' :: b ≠ [] := by
      intro h
      have := congrArg List.length h
      simp at this
    rw [if_neg hne, if_pos hterms, if_neg (by simpa using hstage1),
      if_pos hcomma]

/-- C3 witness: database `[{first_name: "Jo", last_name: "Smith"}]`, query
`"Smith, Jo"`: the comma stage runs and returns the contact. -/
theorem commaFallback_spec_witness :
    (',' ∉ (['S','m','i','t','h'] : Str)) ∧
    (',' ∉ ([' ','J','o'] : Str)) ∧
    commaParts (['S','m','i','t','h'] ++ ',' :: [' ','J','o']) =
      (trimStr ['S','m','i','t','h'], trimStr [' ','J','o']) :=
  ⟨by decide, by decide,
    (commaFallback_spec
      [{ id := 1, first_name := ['J','o'], last_name := some ['S','m','i','t','h'] }]
      20 ['S','m','i','t','h'] [' ','J','o']
      (by decide) (by decide) (by decide) (by decide)).1⟩


-- ════════════════════════════════════════════════════════════════════
-- C1: searching a contact by its own names
-- ════════════════════════════════════════════════════════════════════

def CJ : Contact :=
  { id := 1
    first_name := ['J','o','h','n']
    last_name := some ['S','m','i','t','h'] }

def DJ : Contact :=
  { id := 2
    first_name := ['S','m','i','t','h',',',' ','J','o','h','n','n','y'] }

def dbC1 : List Contact := [CJ, DJ]

def qC1 : Str := ['S','m','i','t','h',',',' ','J','o','h','n']

/-- Any whitespace chunk of the first or last name LIKE-matches stage 1. -/
theorem stage1TermMatch_of_chunk {C : Contact} {F L t : Str}
    (hF : C.first_name = F) (hL : C.last_name = some L)
    (ht : (∃ u v, F = u ++ t ++ v) ∨ (∃ u v, L = u ++ t ++ v)) :
    stage1TermMatch C t = true := by
  have hco : coalesceStr C.last_name = L := by rw [hL]; rfl
  rw [stage1TermMatch, Bool.or_eq_true]
  rcases ht with ⟨u, v, huv⟩ | ⟨u, v, huv⟩
  · exact Or.inl (likeM_wrap_of_sub ⟨lower u, lower v, by
      rw [hF, huv, lower_append, lower_append]⟩)
  · exact Or.inr (likeM_wrap_of_sub ⟨lower u, lower v, by
      rw [hco, huv, lower_append, lower_append]⟩)

/-- A contact that stage-1 matches is returned by `searchContacts` whenever
the full stage-1 result fits the limit. -/
theorem mem_search_stage1 {db : List Contact} {q : Str} {limit : Nat}
    {C : Contact}
    (hq : q ≠ []) (htrim : trimStr q ≠ [])
    (hterms : (queryTerms (trimStr q)).length > 1)
    (hmatch : stage1Match (queryTerms (trimStr q)) C = true)
    (hC : C ∈ db)
    (hcount : ((sortedContacts db).filter
      (stage1Match (queryTerms (trimStr q)))).length ≤ limit) :
    C ∈ searchContacts db q limit := by
  have hmem : C ∈ selectContacts db (stage1Match (queryTerms (trimStr q)))
      limit := (mem_selectContacts_of_le hcount C).mpr ⟨hC, hmatch⟩
  have hne : selectContacts db (stage1Match (queryTerms (trimStr q)))
      limit ≠ [] := by
    intro h
    rw [h] at hmem
    exact absurd hmem (List.not_mem_nil C)
  rw [searchContacts, getContacts]
  simp only [ne_eq]
  rw [if_pos hq, searchContactsSmart]
  rw [if_neg htrim, if_pos hterms, if_pos hne]
  exact hmem

/-- Facts about the two-name space-joined query. -/
theorem space_query_facts {F L : Str} {cF cL : Char}
    (hcF : cF ∈ F) (hcFw : isWs cF = false)
    (hcL : cL ∈ L) (hcLw : isWs cL = false) :
    trimStr (F ++ ' ' :: L) ≠ [] ∧
    queryTerms (trimStr (F ++ ' ' :: L)) = queryTerms F ++ queryTerms L ∧
    (queryTerms (trimStr (F ++ ' ' :: L))).length > 1 := by
  have hsp : isWs ' ' = true := rfl
  have h2 : queryTerms (trimStr (F ++ ' ' :: L)) =
      queryTerms F ++ queryTerms L := by
    rw [queryTerms_trim, queryTerms_append_ws hsp]
  refine ⟨?_, h2, ?_⟩
  · exact trimStr_ne_nil (List.mem_append.mpr (Or.inl hcF))
      (by simp [hcFw])
  · rw [h2, List.length_append]
    have l1 := List.length_pos.mpr (queryTerms_ne_nil hcF (by simp [hcFw]))
    have l2 := List.length_pos.mpr (queryTerms_ne_nil hcL (by simp [hcLw]))
    omega

/-- The trim of `L ++ ", " ++ F` for non-blank `L` and `F`. -/
theorem trimStr_comma_query {F L : Str} {cF cL : Char}
    (hcF : cF ∈ F) (hcFw : isWs cF = false)
    (hcL : cL ∈ L) (hcLw : isWs cL = false) :
    trimStr (L ++ ',' :: ' ' :: F) =
      L.dropWhile isWs ++ ',' :: ' ' :: trimEnd F := by
  rw [trimStr_eq_trimEnd,
    dropWhile_append_left (',' :: ' ' :: F)
      (dropWhile_ne_nil_of_mem hcL hcLw),
    trimEnd_append_right (show cF ∈ ',' :: ' ' :: F by simp [hcF])
      (by simp [hcFw])]
  have h1 : trimEnd (',' :: ' ' :: F) = ',' :: trimEnd (' ' :: F) := by
    rw [show (',' :: ' ' :: F) = [','] ++ (' ' :: F) from rfl,
      trimEnd_append_right (show cF ∈ ' ' :: F by simp [hcF])
        (by simp [hcFw])]
    rfl
  have h2 : trimEnd (' ' :: F) = ' ' :: trimEnd F := by
    rw [show (' ' :: F) = [' '] ++ F from rfl,
      trimEnd_append_right hcF (by simp [hcFw])]
    rfl
  rw [h1, h2]

unseal List.merge List.mergeSort in
/-- C1 counterexample: store `C = {first_name: "John", last_name: "Smith"}`
together with `D = {first_name: "Smith, Johnny"}`; the call
`searchContacts("Smith, John")` returns `[D]` (stage 1 matches both terms
`"Smith,"` and `"John"` inside `D`'s first name) and `C` is NOT among the
results, though its names are non-empty. -/
theorem name_search_counterexample :
    CJ ∈ dbC1 ∧
    CJ.first_name = ['J','o','h','n'] ∧
    CJ.last_name = some ['S','m','i','t','h'] ∧
    (['J','o','h','n'] : Str) ≠ [] ∧
    (['S','m','i','t','h'] : Str) ≠ [] ∧
    qC1 = ['S','m','i','t','h'] ++ ',' :: ' ' :: ['J','o','h','n'] ∧
    CJ ∉ searchContacts dbC1 qC1 20 := by
  decide

/-- C1 as amended: a stored contact `C` with non-blank first name `F` and
non-blank last name `L` stage-1 matches both space-joined queries
`F ++ " " ++ L` and `L ++ " " ++ F` and is returned by each call whenever
the full stage-1 result fits the limit; for the comma query
`L ++ ", " ++ F` (names comma-free) it is returned whenever stage 1 comes
back empty and the full stage-2 result fits the limit.  (No unconditional
guarantee exists: other contacts can fill stage 1 past the limit, and a
contact like `{first_name: "Smith, Johnny"}` can occupy stage 1 of the
comma query, as the counterexample shows.) -/
theorem nameSearch_spec (db : List Contact) (limit : Nat) (C : Contact)
    (F L : Str) (hC : C ∈ db) (hF : C.first_name = F)
    (hL : C.last_name = some L)
    (cF : Char) (hcF : cF ∈ F) (hcFw : isWs cF = false)
    (cL : Char) (hcL : cL ∈ L) (hcLw : isWs cL = false) :
    stage1Match (queryTerms (trimStr (F ++ ' ' :: L))) C = true
    ∧ (((sortedContacts db).filter
          (stage1Match (queryTerms (trimStr (F ++ ' ' :: L))))).length ≤
        limit → C ∈ searchContacts db (F ++ ' ' :: L) limit)
    ∧ stage1Match (queryTerms (trimStr (L ++ ' ' :: F))) C = true
    ∧ (((sortedContacts db).filter
          (stage1Match (queryTerms (trimStr (L ++ ' ' :: F))))).length ≤
        limit → C ∈ searchContacts db (L ++ ' ' :: F) limit)
    ∧ (',' ∉ F → ',' ∉ L →
        selectContacts db
          (stage1Match (queryTerms (trimStr (L ++ ',' :: ' ' :: F))))
          limit = [] →
        ((sortedContacts db).filter
          (stage2Match (trimStr L) (trimStr F))).length ≤ limit →
        C ∈ searchContacts db (L ++ ',' :: ' ' :: F) limit) := by
  obtain ⟨htrFL, heqFL, htFL⟩ := space_query_facts hcF hcFw hcL hcLw
  obtain ⟨htrLF, heqLF, htLF⟩ := space_query_facts hcL hcLw hcF hcFw
  have hmatchFL : stage1Match (queryTerms (trimStr (F ++ ' ' :: L))) C
      = true := by
    rw [heqFL, stage1Match, List.all_eq_true]
    intro t ht
    rcases List.mem_append.mp ht with h | h
    · exact stage1TermMatch_of_chunk hF hL
        (Or.inl (queryTerms_chunk_sub F t h))
    · exact stage1TermMatch_of_chunk hF hL
        (Or.inr (queryTerms_chunk_sub L t h))
  have hmatchLF : stage1Match (queryTerms (trimStr (L ++ ' ' :: F))) C
      = true := by
    rw [heqLF, stage1Match, List.all_eq_true]
    intro t ht
    rcases List.mem_append.mp ht with h | h
    · exact stage1TermMatch_of_chunk hF hL
        (Or.inr (queryTerms_chunk_sub L t h))
    · exact stage1TermMatch_of_chunk hF hL
        (Or.inl (queryTerms_chunk_sub F t h))
  refine ⟨hmatchFL,
    fun hcount => mem_search_stage1 (by simp) htrFL htFL hmatchFL hC hcount,
    hmatchLF,
    fun hcount => mem_search_stage1 (by simp) htrLF htLF hmatchLF hC hcount,
    ?_⟩
  intro hcomF hcomL hstage1 hcount2
  have htr : trimStr (L ++ ',' :: ' ' :: F) =
      L.dropWhile isWs ++ ',' :: ' ' :: trimEnd F :=
    trimStr_comma_query hcF hcFw hcL hcLw
  have htrim : trimStr (L ++ ',' :: ' ' :: F) ≠ [] := by
    rw [htr]
    intro h
    have := congrArg List.length h
    simp at this
  have hterms : (queryTerms (trimStr (L ++ ',' :: ' ' :: F))).length > 1 := by
    rw [queryTerms_trim,
      show L ++ ',' :: ' ' :: F = (L ++ [',']) ++ ' ' :: F by simp,
      queryTerms_append_ws (show isWs ' ' = true from rfl), List.length_append]
    have l1 := List.length_pos.mpr (queryTerms_ne_nil
      (show ',' ∈ L ++ [','] by simp) (by decide))
    have l2 := List.length_pos.mpr (queryTerms_ne_nil hcF (by simp [hcFw]))
    omega
  -- the comma stage evaluates to the stage-2 SELECT on (trim L, trim F)
  have hcsplit : commaParts (trimStr (L ++ ',' :: ' ' :: F)) =
      (trimStr L, trimStr F) := by
    rw [htr, commaParts_single
      (fun h => hcomL (mem_of_mem_dropWhile h))
      (by
        intro h
        rcases List.mem_cons.mp h with h | h
        · exact absurd h (by decide)
        · exact hcomF (mem_of_mem_trimEnd h)),
      trimStr_dropWhile, trimStr_cons_ws (show isWs ' ' = true from rfl), trimStr_trimEnd]
  have hpartsne : trimStr L ≠ [] ∧ trimStr F ≠ [] :=
    ⟨trimStr_ne_nil hcL (by simp [hcLw]),
     trimStr_ne_nil hcF (by simp [hcFw])⟩
  have hstage2C : stage2Match (trimStr L) (trimStr F) C = true := by
    have hco : coalesceStr C.last_name = L := by rw [hL]; rfl
    obtain ⟨uL, vL, hdecL, _, _⟩ := trim_sub L
    obtain ⟨uF, vF, hdecF, _, _⟩ := trim_sub F
    rw [stage2Match, Bool.and_eq_true]
    constructor
    · exact likeM_wrap_of_sub ⟨lower uL, lower vL, by
        rw [hco]
        conv_lhs => rw [hdecL]
        rw [lower_append, lower_append]⟩
    · exact likeM_wrap_of_sub ⟨lower uF, lower vF, by
        rw [hF]
        conv_lhs => rw [hdecF]
        rw [lower_append, lower_append]⟩
  have hmem : C ∈ selectContacts db (stage2Match (trimStr L) (trimStr F))
      limit := (mem_selectContacts_of_le hcount2 C).mpr ⟨hC, hstage2C⟩
  have hcstage : commaStage db (trimStr (L ++ ',' :: ' ' :: F)) limit =
      selectContacts db (stage2Match (trimStr L) (trimStr F)) limit := by
    rw [commaStage, hcsplit]
    have hcontains :
        (trimStr (L ++ ',' :: ' ' :: F)).contains ',' = true := by
      rw [htr, List.contains_eq_any_beq]
      simp [List.any_eq_true]
    rw [if_pos hcontains, if_pos hpartsne]
  have hcne : commaStage db (trimStr (L ++ ',' :: ' ' :: F)) limit ≠ [] := by
    rw [hcstage]
    intro h
    rw [h] at hmem
    exact absurd hmem (List.not_mem_nil C)
  rw [searchContacts, getContacts]
  simp only [ne_eq]
  rw [if_pos (show ¬(L ++ ',' :: ' ' :: F = []) by simp),
    searchContactsSmart, if_neg htrim, if_pos hterms,
    if_neg (by simpa using hstage1), if_pos hcne, hcstage]
  exact hmem

unseal List.merge List.mergeSort in
/-- C1 witness: database `[CJ]`; `searchContacts("John Smith")` returns the
contact. -/
theorem nameSearch_spec_witness :
    (CJ ∈ [CJ]) ∧
    (((sortedContacts [CJ]).filter
        (stage1Match (queryTerms (trimStr
          (['J','o','h','n'] ++ ' ' :: ['S','m','i','t','h']))))).length
      ≤ 20) ∧
    CJ ∈ searchContacts [CJ]
      (['J','o','h','n'] ++ ' ' :: ['S','m','i','t','h']) 20 :=
  ⟨by decide, by decide,
    (nameSearch_spec [CJ] 20 CJ ['J','o','h','n'] ['S','m','i','t','h']
      (by decide) (by decide) (by decide)
      'J' (by decide) (by decide)
      'S' (by decide) (by decide)).2.1 (by decide)⟩


-- ════════════════════════════════════════════════════════════════════
-- C7: CSV import with one email duplicate
-- ════════════════════════════════════════════════════════════════════

theorem dedup_acc_prefix : ∀ (l : List Contact) (acc : List Contact),
    (∀ c d : Contact, (c ∈ acc ∨ c ∈ l) → (d ∈ acc ∨ d ∈ l) →
      c.id = d.id → c = d) →
    ∃ t, l.foldl mapSetById acc = acc ++ t := by
  intro l
  induction l with
  | nil => intro acc _; exact ⟨[], by simp⟩
  | cons x l' ih =>
    intro acc hcoh
    rw [List.foldl_cons]
    by_cases hx : acc.any (fun d => d.id = x.id) = true
    · have heq : mapSetById acc x = acc := by
        rw [mapSetById, if_pos hx]
        conv_rhs => rw [← List.map_id acc]
        apply List.map_congr_left
        intro d hd
        by_cases hdx : d.id = x.id
        · rw [if_pos hdx, id]
          exact (hcoh x d (Or.inr (List.mem_cons_self x l')) (Or.inl hd)
            hdx.symm)
        · rw [if_neg hdx, id]
      rw [heq]
      exact ih acc (fun c d hc hd h =>
        hcoh c d (hc.imp id (List.mem_cons_of_mem x))
          (hd.imp id (List.mem_cons_of_mem x)) h)
    · have heq : mapSetById acc x = acc ++ [x] := by
        rw [mapSetById, if_neg hx]
      rw [heq]
      have hcoh' : ∀ c d : Contact,
          (c ∈ acc ++ [x] ∨ c ∈ l') → (d ∈ acc ++ [x] ∨ d ∈ l') →
          c.id = d.id → c = d := by
        intro c d hc hd h
        apply hcoh c d
        · rcases hc with hc | hc
          · rcases List.mem_append.mp hc with hc | hc
            · exact Or.inl hc
            · rw [List.mem_singleton] at hc
              exact Or.inr (hc ▸ List.mem_cons_self x l')
          · exact Or.inr (List.mem_cons_of_mem x hc)
        · rcases hd with hd | hd
          · rcases List.mem_append.mp hd with hd | hd
            · exact Or.inl hd
            · rw [List.mem_singleton] at hd
              exact Or.inr (hd ▸ List.mem_cons_self x l')
          · exact Or.inr (List.mem_cons_of_mem x hd)
        · exact h
      obtain ⟨t, ht⟩ := ih (acc ++ [x]) hcoh'
      refine ⟨x :: t, ?_⟩
      rw [ht, List.append_assoc]
      rfl

/-- The JS-`Map` union keeps its first element when ids are coherent. -/
theorem dedupById_cons_head {x : Contact} {B : List Contact}
    (hcoh : ∀ c d : Contact, (c = x ∨ c ∈ B) → (d = x ∨ d ∈ B) →
      c.id = d.id → c = d) :
    ∃ t, dedupById (x :: B) = x :: t := by
  rw [dedupById, List.foldl_cons]
  have h0 : mapSetById [] x = [x] := rfl
  rw [h0]
  have hcoh' : ∀ c d : Contact, (c ∈ [x] ∨ c ∈ B) → (d ∈ [x] ∨ d ∈ B) →
      c.id = d.id → c = d := by
    intro c d hc hd h
    apply hcoh c d
    · exact hc.imp (fun h' => List.mem_singleton.mp h') id
    · exact hd.imp (fun h' => List.mem_singleton.mp h') id
    · exact h
  obtain ⟨t, ht⟩ := dedup_acc_prefix B [x] hcoh'
  exact ⟨t, by rw [ht]; rfl⟩

/-- When exactly one stored contact carries the probed email, it heads the
duplicate list. -/
theorem findDuplicates_cons {db : List Contact} {e f : Str} {l : Option Str}
    {E : Contact} {B : List Contact}
    (he : e ≠ [])
    (hE : db.filter (emailDupMatch e) = [E])
    (hB : db.filter (nameDupMatch f (coalesceStr l)) = B)
    (hcoh : ∀ c d : Contact, (c = E ∨ c ∈ B) → (d = E ∨ d ∈ B) →
      c.id = d.id → c = d) :
    ∃ t, findDuplicates db { email := some e, first_name := f, last_name := l }
      = E :: t := by
  rw [findDuplicates]
  simp only [hE, hB]
  rw [if_pos he]
  exact dedupById_cons_head hcoh

/-- When neither probe hits, there are no duplicates. -/
theorem findDuplicates_nil {db : List Contact} {e f : Str} {l : Option Str}
    (h1 : db.filter (emailDupMatch e) = [])
    (h2 : db.filter (nameDupMatch f (coalesceStr l)) = []) :
    findDuplicates db { email := some e, first_name := f, last_name := l }
      = [] := by
  rw [findDuplicates]
  by_cases he : e = []
  · simp [he, h2, dedupById]
  · simp [he, h1, h2, dedupById]


def colMap3 : List (Nat × Str) :=
  [(0, fld_first_name), (1, fld_last_name), (2, fld_email)]

theorem rowEntries_three {f l e : Str} (hf : trimStr f = f) (hf0 : f ≠ [])
    (hl : trimStr l = l) (hl0 : l ≠ []) (he : trimStr e = e) (he0 : e ≠ []) :
    rowEntries colMap3 [f, l, e] =
      [(fld_first_name, f), (fld_last_name, l), (fld_email, e)] := by
  rw [rowEntries, colMap3]
  simp [hf, hl, he, hf0, hl0, he0]

theorem rowGet_three_first (f l e : Str) :
    rowGet [(fld_first_name, f), (fld_last_name, l), (fld_email, e)]
      fld_first_name = some f := by
  rw [rowGet]
  simp only [List.reverse_cons, List.reverse_nil, List.nil_append,
    List.singleton_append, List.cons_append]
  rw [List.find?_cons_of_neg _ (by simp; decide), List.find?_cons_of_neg _ (by simp; decide),
    List.find?_cons_of_pos _ (by simp)]
  rfl

theorem rowGet_three_last (f l e : Str) :
    rowGet [(fld_first_name, f), (fld_last_name, l), (fld_email, e)]
      fld_last_name = some l := by
  rw [rowGet]
  simp only [List.reverse_cons, List.reverse_nil, List.nil_append,
    List.singleton_append, List.cons_append]
  rw [List.find?_cons_of_neg _ (by simp; decide), List.find?_cons_of_pos _ (by simp)]
  rfl

theorem rowGet_three_email (f l e : Str) :
    rowGet [(fld_first_name, f), (fld_last_name, l), (fld_email, e)]
      fld_email = some e := by
  rw [rowGet]
  simp only [List.reverse_cons, List.reverse_nil, List.nil_append,
    List.singleton_append, List.cons_append]
  rw [List.find?_cons_of_pos _ (by simp)]
  rfl

theorem rowGet_three_none (f l e : Str) (fld : Str)
    (h1 : fld ≠ fld_first_name) (h2 : fld ≠ fld_last_name)
    (h3 : fld ≠ fld_email) :
    rowGet [(fld_first_name, f), (fld_last_name, l), (fld_email, e)]
      fld = none := by
  rw [rowGet]
  simp only [List.reverse_cons, List.reverse_nil, List.nil_append,
    List.singleton_append, List.cons_append]
  rw [List.find?_cons_of_neg _ (by simpa using fun h => h3 h.symm),
    List.find?_cons_of_neg _ (by simpa using fun h => h2 h.symm),
    List.find?_cons_of_neg _ (by simpa using fun h => h1 h.symm)]
  rfl


theorem importLoop_dup_step {db : Db} {res : ImportResult} {rowIdx : Nat}
    {rest : List (List Str)} {f l e : Str} {E : Contact} {t : List Contact}
    (hf : trimStr f = f) (hf0 : f ≠ []) (hl : trimStr l = l) (hl0 : l ≠ [])
    (he : trimStr e = e) (he0 : e ≠ [])
    (hdup : findDuplicates db.contacts
      { email := some e, first_name := f, last_name := some l } = E :: t) :
    importLoop colMap3 db res rowIdx ([f, l, e] :: rest) =
      importLoop colMap3 db
        { res with
            duplicates := res.duplicates ++
              [⟨rowIdx + 1, E, trimStr (f ++ [' '] ++ l)⟩]
            skipped := res.skipped + 1 } (rowIdx + 1) rest := by
  rw [importLoop]
  rw [if_neg (by simp)]
  simp only [rowEntries_three hf hf0 hl hl0 he he0,
    rowGet_three_first, rowGet_three_last, rowGet_three_email, hdup]
  rfl

theorem importLoop_create_step {db : Db} {res : ImportResult} {rowIdx : Nat}
    {rest : List (List Str)} {f l e : Str}
    (hf : trimStr f = f) (hf0 : f ≠ []) (hl : trimStr l = l) (hl0 : l ≠ [])
    (he : trimStr e = e) (he0 : e ≠ [])
    (hdup : findDuplicates db.contacts
      { email := some e, first_name := f, last_name := some l } = []) :
    importLoop colMap3 db res rowIdx ([f, l, e] :: rest) =
      importLoop colMap3
        { db with
            contacts := db.contacts ++
              [{ id := nextContactId db
                 first_name := f
                 last_name := some l
                 email := some e }] }
        { res with created := res.created + 1 } (rowIdx + 1) rest := by
  rw [importLoop]
  rw [if_neg (by simp)]
  simp only [rowEntries_three hf hf0 hl hl0 he he0,
    rowGet_three_first, rowGet_three_last, rowGet_three_email,
    rowGet_three_none f l e fld_company_name (by decide) (by decide)
      (by decide),
    rowGet_three_none f l e fld_nickname (by decide) (by decide) (by decide),
    rowGet_three_none f l e fld_phone (by decide) (by decide) (by decide),
    rowGet_three_none f l e fld_birthday (by decide) (by decide) (by decide),
    rowGet_three_none f l e fld_anniversary (by decide) (by decide)
      (by decide),
    rowGet_three_none f l e fld_tags (by decide) (by decide) (by decide),
    rowGet_three_none f l e fld_notes (by decide) (by decide) (by decide),
    hdup]
  rw [resolveCompany, createContact]
  rfl


/-- A well-formed CSV cell for the import scenario: non-empty, already
trimmed, and free of carriage returns. -/
def plainCell (s : Str) : Prop :=
  s ≠ [] ∧ trimStr s = s ∧ '\r' ∉ s

instance plainCellDecidable (s : Str) : Decidable (plainCell s) :=
  inferInstanceAs (Decidable (s ≠ [] ∧ trimStr s = s ∧ '\r' ∉ s))

theorem coh_of_nodup {base : List Contact} {E : Contact} {B : List Contact}
    (hids : (base.map (fun c => c.id)).Nodup)
    (hEmem : E ∈ base) (hBsub : ∀ c ∈ B, c ∈ base) :
    ∀ c d : Contact, (c = E ∨ c ∈ B) → (d = E ∨ d ∈ B) →
      c.id = d.id → c = d := by
  intro c d hc hd h
  have hc' : c ∈ base := by
    rcases hc with rfl | hc
    · exact hEmem
    · exact hBsub c hc
  have hd' : d ∈ base := by
    rcases hd with rfl | hd
    · exact hEmem
    · exact hBsub d hd
  exact List.inj_on_of_nodup_map hids hc' hd' h

def hdr3 : List Str := [fld_first_name, fld_last_name, fld_email]

theorem parse_header_rows {r1 r2 : List Str}
    (h1 : r1.length = 3) (h2 : r2.length = 3)
    (hcr1 : ∀ f ∈ r1, '\r' ∉ f) (hcr2 : ∀ f ∈ r2, '\r' ∉ f) :
    parseCsvLines (encodeCsvRows [hdr3, r1, r2]) = [hdr3, r1, r2] := by
  rw [parseCsvLines,
    parse_encoded_rows [hdr3, r1, r2] (by simp)
      (by
        intro r hr
        rcases List.mem_cons.mp hr with rfl | hr
        · simp [hdr3]
        · rcases List.mem_cons.mp hr with rfl | hr
          · intro h
            rw [h] at h1
            simp at h1
          · rw [List.mem_singleton] at hr
            subst hr
            intro h
            rw [h] at h2
            simp at h2)
      (by
        intro r hr f hf
        rcases List.mem_cons.mp hr with rfl | hr
        · rcases List.mem_cons.mp hf with rfl | hf
          · decide
          · rcases List.mem_cons.mp hf with rfl | hf
            · decide
            · rw [List.mem_singleton] at hf
              subst hf
              decide
        · rcases List.mem_cons.mp hr with rfl | hr
          · exact hcr1 f hf
          · rw [List.mem_singleton] at hr
            subst hr
            exact hcr2 f hf)
      (by
        intro h
        simp only [List.getLast?_cons_cons, List.getLast?_singleton,
          Option.some.injEq] at h
        rw [h] at h2
        simp at h2)
      [],
    List.nil_append]


def E7 : Contact :=
  { id := 1
    first_name := ['J','o','h','n']
    last_name := some ['S','m','i','t','h']
    email := some ['a','@','b'] }

def db7 : Db := { contacts := [E7] }

def csv7 : Str :=
  fld_first_name ++ ',' :: fld_last_name ++ ',' :: fld_email ++
  '\n' :: ['Z','e','d'] ++ ',' :: ['Q'] ++ ',' :: ['a','@','b'] ++
  '\n' :: ['J','o','h','n'] ++ ',' :: ['S','m','i','t','h'] ++
  ',' :: ['x','@','y']

/-- C7 counterexample: CSV header `first_name,last_name,email` with the two
data rows `Zed,Q,a@b` and `John,Smith,x@y` against a database holding only
`{id: 1, first_name: John, last_name: Smith, email: a@b}`.  Exactly one row
(`Zed`) carries a pre-existing email, yet the import creates NOTHING and
reports TWO duplicates: the `John,Smith` row is caught by the name probe
of `findDuplicates`, which the claim ignores. -/
theorem import_two_rows_counterexample :
    parseCsvLines csv7 = [[fld_first_name, fld_last_name, fld_email],
      [['Z','e','d'], ['Q'], ['a','@','b']],
      [['J','o','h','n'], ['S','m','i','t','h'], ['x','@','y']]] ∧
    db7.contacts.filter (emailDupMatch ['a','@','b']) = [E7] ∧
    db7.contacts.filter (emailDupMatch ['x','@','y']) = [] ∧
    (importContactsCsv db7 csv7).2.created = 0 ∧
    ((importContactsCsv db7 csv7).2.duplicates.map
      (fun d => d.existing.id)) = [1, 1] := by
  decide

/-- C7 as amended: for a CSV with header `first_name,last_name,email` and
two well-formed data rows of which exactly one (`f1,l1,e1`) carries the
email of exactly one pre-existing contact `E`, the import returns
`created = 1` and a single duplicate entry whose existing contact is `E` —
PROVIDED the other row trips neither duplicate probe: its email matches no
stored contact and its (first name, last name) pair matches no stored
contact case-insensitively, nor (in either respect) the contact the import
itself creates from the other row.  Both row orders are covered. -/
theorem importCsv_email_dup_spec (db : Db) (E : Contact)
    (f1 l1 e1 f2 l2 e2 : Str)
    (hcells : ∀ s ∈ [f1, l1, e1, f2, l2, e2], plainCell s)
    (hids : (db.contacts.map (fun c => c.id)).Nodup)
    (hE : db.contacts.filter (emailDupMatch e1) = [E])
    (h2e : db.contacts.filter (emailDupMatch e2) = [])
    (h2n : db.contacts.filter (nameDupMatch f2 l2) = [])
    (h12e : e2 ≠ e1)
    (h12n : lower f2 ≠ lower f1 ∨ lower l2 ≠ lower l1) :
    ((importContactsCsv db
        (encodeCsvRows [hdr3, [f1, l1, e1], [f2, l2, e2]])).2 =
      { created := 1
        skipped := 1
        errors := []
        duplicates := [⟨2, E, trimStr (f1 ++ [' '] ++ l1)⟩] })
    ∧ ((importContactsCsv db
        (encodeCsvRows [hdr3, [f2, l2, e2], [f1, l1, e1]])).2 =
      { created := 1
        skipped := 1
        errors := []
        duplicates := [⟨3, E, trimStr (f1 ++ [' '] ++ l1)⟩] }) := by
  obtain ⟨hf10, hf1t, hf1r⟩ := hcells f1 (by simp)
  obtain ⟨hl10, hl1t, hl1r⟩ := hcells l1 (by simp)
  obtain ⟨he10, he1t, he1r⟩ := hcells e1 (by simp)
  obtain ⟨hf20, hf2t, hf2r⟩ := hcells f2 (by simp)
  obtain ⟨hl20, hl2t, hl2r⟩ := hcells l2 (by simp)
  obtain ⟨he20, he2t, he2r⟩ := hcells e2 (by simp)
  have hcrA : ∀ g ∈ [f1, l1, e1], '\r' ∉ g := by
    intro g hg
    rcases List.mem_cons.mp hg with rfl | hg
    · exact hf1r
    rcases List.mem_cons.mp hg with rfl | hg
    · exact hl1r
    rw [List.mem_singleton] at hg
    subst hg
    exact he1r
  have hcrB : ∀ g ∈ [f2, l2, e2], '\r' ∉ g := by
    intro g hg
    rcases List.mem_cons.mp hg with rfl | hg
    · exact hf2r
    rcases List.mem_cons.mp hg with rfl | hg
    · exact hl2r
    rw [List.mem_singleton] at hg
    subst hg
    exact he2r
  have hH : List.map normalizeHeader hdr3 = hdr3 := by decide
  have hCM : buildColMap hdr3 = colMap3 := by decide
  have hEmem : E ∈ db.contacts := by
    have h : E ∈ db.contacts.filter (emailDupMatch e1) := by
      rw [hE]
      exact List.mem_singleton.mpr rfl
    exact (List.mem_filter.mp h).1
  have hcoh : ∀ c d : Contact,
      (c = E ∨ c ∈ db.contacts.filter
        (nameDupMatch f1 (coalesceStr (some l1)))) →
      (d = E ∨ d ∈ db.contacts.filter
        (nameDupMatch f1 (coalesceStr (some l1)))) →
      c.id = d.id → c = d :=
    coh_of_nodup hids hEmem (fun c hc => (List.mem_filter.mp hc).1)
  obtain ⟨tA, hdupA⟩ := findDuplicates_cons he10 hE rfl hcoh
  have hdup2 : findDuplicates db.contacts
      { email := some e2, first_name := f2, last_name := some l2 } = [] :=
    findDuplicates_nil h2e h2n
  constructor
  · rw [importContactsCsv, parse_header_rows (by simp) (by simp) hcrA hcrB]
    rw [if_neg (by simp)]
    simp only [List.headD_cons, hH, hCM]
    rw [if_neg (by decide)]
    simp only [List.drop_succ_cons, List.drop_zero]
    rw [importLoop_dup_step hf1t hf10 hl1t hl10 he1t he10 hdupA,
      importLoop_create_step hf2t hf20 hl2t hl20 he2t he20 hdup2]
    rfl
  · have hEB : ({ db with contacts := db.contacts ++
        [{ id := nextContactId db
           first_name := f2
           last_name := some l2
           email := some e2 }] } : Db).contacts.filter
          (emailDupMatch e1) = [E] := by
      show (db.contacts ++ _).filter (emailDupMatch e1) = [E]
      rw [List.filter_append, hE]
      simp [emailDupMatch, h12e]
    have hBB : ({ db with contacts := db.contacts ++
        [{ id := nextContactId db
           first_name := f2
           last_name := some l2
           email := some e2 }] } : Db).contacts.filter
          (nameDupMatch f1 (coalesceStr (some l1))) =
        db.contacts.filter (nameDupMatch f1 (coalesceStr (some l1))) := by
      show (db.contacts ++ _).filter _ = _
      rw [List.filter_append]
      rcases h12n with h | h <;>
        simp [nameDupMatch, coalesceStr, h]
    obtain ⟨tB, hdupB⟩ := findDuplicates_cons he10 hEB hBB hcoh
    rw [importContactsCsv, parse_header_rows (by simp) (by simp) hcrB hcrA]
    rw [if_neg (by simp)]
    simp only [List.headD_cons, hH, hCM]
    rw [if_neg (by decide)]
    simp only [List.drop_succ_cons, List.drop_zero]
    rw [importLoop_create_step hf2t hf20 hl2t hl20 he2t he20 hdup2,
      importLoop_dup_step hf1t hf10 hl1t hl10 he1t he10 hdupB]
    rfl

/-- C7 witness: `db7` plus rows `Zed,Q,a@b` (email duplicate of contact 1)
and `Amy,Pond,x@y` (fresh): one creation, one duplicate against contact 1. -/
theorem importCsv_email_dup_spec_witness :
    ((db7.contacts.map (fun c => c.id)).Nodup) ∧
    (db7.contacts.filter (emailDupMatch ['a','@','b']) = [E7]) ∧
    ((importContactsCsv db7 (encodeCsvRows [hdr3,
        [['Z','e','d'], ['Q'], ['a','@','b']],
        [['A','m','y'], ['P','o','n','d'], ['x','@','y']]])).2 =
      { created := 1
        skipped := 1
        errors := []
        duplicates := [⟨2, E7, trimStr (['Z','e','d'] ++ [' '] ++ ['Q'])⟩] }) :=
  ⟨by decide, by decide,
    (importCsv_email_dup_spec db7 E7 ['Z','e','d'] ['Q'] ['a','@','b']
      ['A','m','y'] ['P','o','n','d'] ['x','@','y']
      (by decide) (by decide) (by decide) (by decide) (by decide)
      (by decide) (by decide)).1⟩


end Crm